import Mathlib

/-!
# PGM image rotation (`matrix_rotation.c`)

A shallow embedding of the rotation program: the pixel array is a map from
`int` index pairs to bytes, every array access is bounds-checked against the
array dimension, `exit(EXIT_FAILURE)` and an out-of-bounds access are the two
ways a run can fail, and every C `for` loop is a bounded iteration over its
`int` counter.  The macros `DIMX`, `DIMY` and `SQDIM` are parameters of the
functions that use them; the compiled program instantiates them with
`DIMX = 690`, `DIMY = 920` and `SQDIM = 920`.

C `int` values are modelled by `Int`: no expression of the program leaves the
range of `int` for the dimensions at hand, and every division is of a
non-negative number, where C and Lean round alike.  The timing and `printf`
calls of the kernels, the argument parsing and the `open`/`close` calls of
`main` are left out.
-/

namespace PGMRotation

/-! ## Data model -/

/-- An `unsigned char` sample. -/
abbrev Byte := Fin 256

/-- The pixel array `unsigned char mat[][SQDIM]`: `mat r c` is the cell
`mat[r][c]`, addressed by C `int` indices. -/
abbrev Matrix := Int → Int → Byte

/-- The message printed before `exit(EXIT_FAILURE)`. -/
inductive Diagnostic where
  | readHeader
  | readData
  | writeHeader
  | writeData
  deriving DecidableEq

/-- The ways a run can stop without a result. -/
inductive Fault where
  | outOfBounds
  | exitFailure (d : Diagnostic)
  deriving DecidableEq

/-- Macro `DIMX`. -/
def DIMX : Int := 690

/-- Macro `DIMY`. -/
def DIMY : Int := 920

/-- Macro `SQDIM`, `((DIMX > DIMY) ? DIMX : DIMY)`. -/
def SQDIM : Int := if DIMX > DIMY then DIMX else DIMY

/-- Read of `mat[r][c]` in an array of `S` rows and `S` columns. -/
def Matrix.get (S : Int) (mat : Matrix) (r c : Int) : Except Fault Byte :=
  if 0 ≤ r ∧ r < S ∧ 0 ≤ c ∧ c < S then .ok (mat r c) else .error .outOfBounds

/-- Assignment `mat[r][c] = v` in an array of `S` rows and `S` columns. -/
def Matrix.set (S : Int) (mat : Matrix) (r c : Int) (v : Byte) : Except Fault Matrix :=
  if 0 ≤ r ∧ r < S ∧ 0 ≤ c ∧ c < S then
    .ok (fun r' c' => if r' = r ∧ c' = c then v else mat r' c')
  else .error .outOfBounds

/-- Runs `body k`, `body (k + 1)`, ... for `n` consecutive counter values,
stopping at the first failure. -/
def forLoop {σ : Type} (body : Int → σ → Except Fault σ) : Nat → Int → σ → Except Fault σ
  | 0, _, s => .ok s
  | n + 1, k, s =>
    match body k s with
    | .ok s' => forLoop body n (k + 1) s'
    | .error e => .error e

/-- The loop `for (int k = lo; k < hi; k++) body`, whose body changes neither
`k` nor `hi`: it runs for `k = lo, lo + 1, ..., hi - 1`, not at all when
`hi ≤ lo`. -/
def forRange {σ : Type} (lo hi : Int) (body : Int → σ → Except Fault σ) (s : σ) :
    Except Fault σ :=
  forLoop body (hi - lo).toNat lo s

/-! ## Rotation engine -/

/-- Body of the inner loop of `rotate_right` (source lines 138-142). -/
def rotate_right_body (S i j : Int) (mat : Matrix) : Except Fault Matrix := do
  let temp ← mat.get S i j
  let mat ← mat.set S i j (← mat.get S (S - 1 - j) i)
  let mat ← mat.set S (S - 1 - j) i (← mat.get S (S - 1 - i) (S - 1 - j))
  let mat ← mat.set S (S - 1 - i) (S - 1 - j) (← mat.get S j (S - 1 - i))
  mat.set S j (S - 1 - i) temp

/-- One iteration of the outer loop of `rotate_right`: the inner loop
`for (int j = i; j < SQDIM - i - 1; j++)`. -/
def rotate_right_layer (S i : Int) (mat : Matrix) : Except Fault Matrix :=
  forRange i (S - i - 1) (rotate_right_body S i) mat

/-- Function `rotate_right`: `for (int i = 0; i < SQDIM / 2; i++)` over the
layers. The OpenMP pragma shares the iterations of this loop among
`thread_count` threads; here they run in ascending order of `i`. -/
def rotate_right (S : Int) (mat : Matrix) : Except Fault Matrix :=
  forRange 0 (S / 2) (rotate_right_layer S) mat

/-- Body of the inner loop of `rotate_left` (source lines 163-167). -/
def rotate_left_body (S i j : Int) (mat : Matrix) : Except Fault Matrix := do
  let temp ← mat.get S i j
  let mat ← mat.set S i j (← mat.get S j (S - 1 - i))
  let mat ← mat.set S j (S - 1 - i) (← mat.get S (S - 1 - i) (S - 1 - j))
  let mat ← mat.set S (S - 1 - i) (S - 1 - j) (← mat.get S (S - 1 - j) i)
  mat.set S (S - 1 - j) i temp

/-- One iteration of the outer loop of `rotate_left`. -/
def rotate_left_layer (S i : Int) (mat : Matrix) : Except Fault Matrix :=
  forRange i (S - i - 1) (rotate_left_body S i) mat

/-- Function `rotate_left`: the same two loops as `rotate_right`, around
`rotate_left_body`. -/
def rotate_left (S : Int) (mat : Matrix) : Except Fault Matrix :=
  forRange 0 (S / 2) (rotate_left_layer S) mat

/-- Function `rotate`: `rotations_left` passes of `rotate_left`, then
`rotations_right` passes of `rotate_right`. The two counts are the global
`int` variables of the program, passed as arguments here. -/
def rotate (S : Int) (rotations_right rotations_left : Int) (mat : Matrix) :
    Except Fault Matrix := do
  let mat ← forRange 0 rotations_left (fun _ m => rotate_left S m) mat
  forRange 0 rotations_right (fun _ m => rotate_right S m) mat

/-! ## Raster input -/

/-- An open descriptor on a regular file: the bytes of the file and the
current offset. -/
structure Fd where
  content : List Byte
  pos : Nat

/-- The call `read(fd, buf, n)` on a regular file: it delivers the next `n`
bytes, fewer only when the file ends first, and advances the offset past them.
The value `read` returns is the length of the delivered list. -/
def read (fd : Fd) (n : Nat) : List Byte × Fd :=
  ((fd.content.drop fd.pos).take n,
    { fd with pos := fd.pos + ((fd.content.drop fd.pos).take n).length })

/-- The array `char header[80]` of `main`, addressed by `int` indices. -/
abbrev Header := Int → Byte

/-- The bytes `got` stored from `buf[0]` on. -/
def Header.store (header : Header) (got : List Byte) : Header := fun k =>
  if 0 ≤ k ∧ k < got.length then got.getD k.toNat 0 else header k

/-- Function `zero_matrix`. -/
def zero_matrix (S : Int) (mat : Matrix) : Except Fault Matrix :=
  forRange 0 S (fun i m => forRange 0 S (fun j m => m.set S i j 0) m) mat

/-- Function `read_pgm_header`: one `read` of 38 bytes into `header` (an array
of 80 in `main`), and `exit(EXIT_FAILURE)` unless it delivers 38 bytes. -/
def read_pgm_header (fd : Fd) (header : Header) : Except Fault (Fd × Header) :=
  if (read fd 38).1.length ≠ 38 then .error (.exitFailure .readHeader)
  else .ok ((read fd 38).2, header.store (read fd 38).1)

/-- Body of the inner loop of `read_pgm_data`: `read(fd, &mat[i][j], 1)`, and
`exit(EXIT_FAILURE)` unless it delivers one byte. -/
def read_pgm_data_body (S i j : Int) (st : Fd × Matrix) : Except Fault (Fd × Matrix) := do
  let _ ← st.2.get S i j
  match (read st.1 1).1 with
  | [b] => do
    let mat ← st.2.set S i j b
    pure ((read st.1 1).2, mat)
  | _ => .error (.exitFailure .readData)

/-- Function `read_pgm_data`: `for (i < DIMY) for (j < DIMX)` one byte into
`mat[i][j]`. The first two arguments are the macros `DIMX` and `DIMY`. -/
def read_pgm_data (dimx dimy S : Int) (fd : Fd) (mat : Matrix) : Except Fault (Fd × Matrix) :=
  forRange 0 dimy (fun i st => forRange 0 dimx (fun j st => read_pgm_data_body S i j st) st)
    (fd, mat)

/-- Lines 78-82 of `main`: `zero_matrix(P)`, `read_pgm_header(fdin, header)`,
`read_pgm_data(fdin, P)` on an input file just opened, with `header` and `P`
holding `header0` and `P0` before. -/
def load (dimx dimy S : Int) (input : List Byte) (header0 : Header) (P0 : Matrix) :
    Except Fault (Header × Matrix) := do
  let mat ← zero_matrix S P0
  let (fd, header) ← read_pgm_header { content := input, pos := 0 } header0
  let (_, mat) ← read_pgm_data dimx dimy S fd mat
  pure (header, mat)

/-! ## Raster output and the pipeline of `main` -/

/-- An open descriptor on the output file: the bytes written so far and the
number of further bytes the destination can take. -/
structure OutFd where
  written : List Byte
  room : Nat

/-- The call `write(fd, buf, n)`, with `bytes` the `n` bytes at `buf`: the
destination takes them all when it has room, otherwise only as many as it has
room for. The value `write` returns is the first component, the number of
bytes taken. -/
def write (out : OutFd) (bytes : List Byte) : Nat × OutFd :=
  ((bytes.take out.room).length,
    { written := out.written ++ bytes.take out.room,
      room := out.room - (bytes.take out.room).length })

/-- The bytes `header[0] .. header[n-1]`. -/
def Header.bytes (header : Header) (n : Nat) : List Byte :=
  (List.range n).map fun (k : Nat) => header (k : Int)

/-- Assignment `header[k] = v` in an array of `cap` bytes. -/
def Header.set (cap : Int) (header : Header) (k : Int) (v : Byte) : Except Fault Header :=
  if 0 ≤ k ∧ k < cap then .ok (fun k' => if k' = k then v else header k')
  else .error .outOfBounds

/-- The `char` constant of a character, as a byte. -/
def ascii (ch : Char) : Byte := Fin.ofNat ch.toNat

/-- Body of the inner loop of `write_pgm`: `write(fd, &mat[i][j], 1)`, and
`exit(EXIT_FAILURE)` unless it takes one byte. -/
def write_pgm_body (S : Int) (mat : Matrix) (i j : Int) (out : OutFd) : Except Fault OutFd := do
  let b ← mat.get S i j
  if (write out [b]).1 ≠ 1 then .error (.exitFailure .writeData)
  else pure (write out [b]).2

/-- Function `write_pgm`: one `write` of the 38 header bytes, then
`for (i < SQDIM) for (j < SQDIM)` one `write` of `mat[i][j]`; each
`exit(EXIT_FAILURE)` unless all its bytes are taken. -/
def write_pgm (S : Int) (out : OutFd) (header : Header) (mat : Matrix) : Except Fault OutFd :=
  if (write out (header.bytes 38)).1 ≠ 38 then .error (.exitFailure .writeHeader)
  else
    forRange 0 S (fun i o => forRange 0 S (fun j o => write_pgm_body S mat i j o) o)
      (write out (header.bytes 38)).2

/-- Lines 89-94 of `main`: the six assignments to `header[26] .. header[28]`
and `header[30] .. header[32]`, in the array `char header[80]`. -/
def patch_header (header : Header) : Except Fault Header := do
  let header ← header.set 80 26 (ascii '9')
  let header ← header.set 80 27 (ascii '2')
  let header ← header.set 80 28 (ascii '0')
  let header ← header.set 80 30 (ascii '9')
  let header ← header.set 80 31 (ascii '2')
  let header ← header.set 80 32 (ascii '0')
  pure header

/-- Lines 77-98 of `main` once both files are open: `zero_matrix`,
`read_pgm_header`, `read_pgm_data`, `rotate`, the header patch and
`write_pgm` to the output file, which `O_TRUNC` has emptied and which can take
`room` bytes. The result is the content of the output file. The first three
arguments are the macros `DIMX`, `DIMY` and `SQDIM`. -/
def main (dimx dimy S : Int) (input : List Byte) (room : Nat)
    (rotations_right rotations_left : Int) (header0 : Header) (P0 : Matrix) :
    Except Fault (List Byte) := do
  let (header, mat) ← load dimx dimy S input header0 P0
  let mat ← rotate S rotations_right rotations_left mat
  let header ← patch_header header
  let out ← write_pgm S { written := [], room := room } header mat
  pure out.written

/-! ## Notions used to state the properties -/

/-- The loop pairs `(i, j)` of one pass: `0 ≤ i < S / 2` from the outer loop,
`i ≤ j < S - i - 1` from the inner one. -/
def LoopPair (S i j : Int) : Prop := 0 ≤ i ∧ i < S / 2 ∧ i ≤ j ∧ j < S - i - 1

/-- The four cells that the loop body at `(i, j)` reads and writes, in either
kernel: `[i][j]`, `[S-1-j][i]`, `[S-1-i][S-1-j]`, `[j][S-1-i]`. -/
def cycleCells (S i j : Int) : List (Int × Int) :=
  [(i, j), (S - 1 - j, i), (S - 1 - i, S - 1 - j), (j, S - 1 - i)]

/-- The cells of the loop pairs in `P`. -/
def Processed (S : Int) (P : Int → Int → Prop) (r c : Int) : Prop :=
  ∃ i j, P i j ∧ LoopPair S i j ∧ (r, c) ∈ cycleCells S i j

/-- State of the buffer once the loop pairs in `P` have been executed on `B`:
their cells hold the value of their source cell, every other cell is as in `B`. -/
def PassInv (S : Int) (src : Int → Int → Int × Int) (B : Matrix)
    (P : Int → Int → Prop) (m : Matrix) : Prop :=
  ∀ r c, (Processed S P r c → m r c = B (src r c).1 (src r c).2) ∧
    (¬ Processed S P r c → m r c = B r c)

/-- Quarter turn clockwise of the cells `0 ≤ r, c < S`, as the spec words it:
the new value of `[r][c]` is the old value of `[S - 1 - c][r]`. -/
def clockwise (S : Int) (B : Matrix) : Matrix := fun r c =>
  if 0 ≤ r ∧ r < S ∧ 0 ≤ c ∧ c < S then B (S - 1 - c) r else B r c

/-- Quarter turn counter-clockwise of the cells `0 ≤ r, c < S`: the new value of
`[r][c]` is the old value of `[c][S - 1 - r]`. -/
def counterClockwise (S : Int) (B : Matrix) : Matrix := fun r c =>
  if 0 ≤ r ∧ r < S ∧ 0 ≤ c ∧ c < S then B c (S - 1 - r) else B r c

/-- The pass `f` applied `n` times in a row. -/
def passes (f : Matrix → Except Fault Matrix) : Nat → Matrix → Except Fault Matrix
  | 0, m => .ok m
  | n + 1, m => f m >>= passes f n

/-- The rows `0 .. S - 1` of a buffer, each listed over columns `0 .. S - 1`. -/
def Matrix.rows (S : Nat) (mat : Matrix) : List (List Byte) :=
  (List.range S).map fun r => (List.range S).map fun c => mat r c

/-- The 4×4 test buffer holding `1 .. 16` in row-major order. -/
def grid4 : Matrix := fun r c => Fin.ofNat (4 * r + c + 1).toNat

/-- The 4×4 buffer whose only non-zero cells are the 3 rows by 2 columns at
the top left, all holding 7. -/
def card4 : Matrix := fun r c => if 0 ≤ r ∧ r < 3 ∧ 0 ≤ c ∧ c < 2 then 7 else 0

/-- A 46-byte test file: the bytes `0 .. 45`. -/
def smallInput : List Byte := (List.range 46).map Fin.ofNat

/-- State of `read_pgm_data` on entering iteration `(i, j)`, for a file
`content` read from offset `p0` on with `W` samples a row: the offset has
advanced by one per cell filled, and the cells filled so far hold the bytes of
the file in order, the others are as in `Z`. -/
def DataInv (W : Int) (content : List Byte) (p0 : Nat) (Z : Matrix) (i j : Int)
    (st : Fd × Matrix) : Prop :=
  st.1.content = content ∧ (st.1.pos : Int) = p0 + W * i + j ∧
    st.1.pos ≤ content.length ∧
    ∀ r c, st.2 r c =
      if 0 ≤ r ∧ 0 ≤ c ∧ c < W ∧ (r < i ∨ (r = i ∧ c < j)) then
        content.getD (p0 + W * r + c).toNat 0
      else Z r c

/-- State of `write_pgm` on entering iteration `(i, j)`: after the `w0` bytes
that were in the file when the loops began, the cells passed so far have been
written in order, one byte each, and the destination, which had room for
`room0` bytes then, has room for as many fewer. -/
def OutInv (S : Int) (mat : Matrix) (w0 : List Byte) (room0 : Nat) (i j : Int)
    (out : OutFd) : Prop :=
  ∃ d : List Byte, out.written = w0 ++ d ∧ (d.length : Int) = S * i + j ∧
    (out.room : Int) + S * i + j = room0 ∧
    ∀ r c, 0 ≤ r ∧ 0 ≤ c ∧ c < S ∧ (r < i ∨ (r = i ∧ c < j)) →
      d[(S * r + c).toNat]? = some (mat r c)

/-- The buffer that `load` builds from a long enough input: the samples of the
file in the top-left `dimx` columns by `dimy` rows, zero in the rest of the
`S` by `S` cells, and `P0` outside the array. -/
def loadedBuffer (dimx dimy S : Int) (input : List Byte) (P0 : Matrix) : Matrix := fun r c =>
  if 0 ≤ r ∧ r < dimy ∧ 0 ≤ c ∧ c < dimx then input.getD (38 + dimx * r + c).toNat 0
  else if 0 ≤ r ∧ r < S ∧ 0 ≤ c ∧ c < S then 0 else P0 r c

/-- The header after the six assignments of `patch_header`. -/
def patchedHeader (header : Header) : Header := fun k =>
  if k = 26 ∨ k = 30 then ascii '9'
  else if k = 27 ∨ k = 31 then ascii '2'
  else if k = 28 ∨ k = 32 then ascii '0'
  else header k

/-- A well-formed test file of `38 + 690*920` bytes, every byte `v`. -/
def uniformInput (v : Byte) : List Byte := List.replicate (38 + 690 * 920) v

/-- The number of cells `[r][c]`, `0 ≤ r, c < S`, of a buffer that hold the
value `v`. -/
def countValue (S : Nat) (B : Matrix) (v : Byte) : Nat :=
  ((Finset.range S ×ˢ Finset.range S).filter fun p => B (p.1 : Int) (p.2 : Int) = v).card

/-- The layers of a pass run one after the other in the order of the list
`order`, each by its inner loop as written. -/
def runLayers (layer : Int → Matrix → Except Fault Matrix) :
    List Int → Matrix → Except Fault Matrix
  | [], m => .ok m
  | i :: order, m => layer i m >>= runLayers layer order

/-- The values `0, 1, ..., S/2 - 1` of the outer loop counter, ascending. -/
def layerIndices (S : Int) : List Int :=
  (List.range (S / 2).toNat).map fun (i : Nat) => (i : Int)

/-! ## Auxiliary lemmas -/

theorem ok_bind {α β : Type} (a : α) (f : α → Except Fault β) :
    (Except.ok a >>= f) = f a := rfl

theorem Matrix.get_ok {S : Int} (mat : Matrix) {r c : Int}
    (h : 0 ≤ r ∧ r < S ∧ 0 ≤ c ∧ c < S) : mat.get S r c = .ok (mat r c) := by
  simp [Matrix.get, h]

theorem Matrix.set_ok {S : Int} (mat : Matrix) {r c : Int} (v : Byte)
    (h : 0 ≤ r ∧ r < S ∧ 0 ≤ c ∧ c < S) :
    mat.set S r c v = .ok (fun r' c' => if r' = r ∧ c' = c then v else mat r' c') := by
  simp [Matrix.set, h]

theorem mem_cycleCells {S i j r c : Int} :
    (r, c) ∈ cycleCells S i j ↔
      (r = i ∧ c = j) ∨ (r = S - 1 - j ∧ c = i) ∨ (r = S - 1 - i ∧ c = S - 1 - j) ∨
        (r = j ∧ c = S - 1 - i) := by
  simp [cycleCells]

theorem rotate_right_body_spec {S i j : Int} (h : LoopPair S i j) (m : Matrix) :
    ∃ m', rotate_right_body S i j m = .ok m' ∧
      ∀ r c, m' r c = if (r, c) ∈ cycleCells S i j then m (S - 1 - c) r else m r c := by
  obtain ⟨h0, h1, h2, h3⟩ := h
  have b1 : 0 ≤ i ∧ i < S ∧ 0 ≤ j ∧ j < S := by omega
  have b2 : 0 ≤ S - 1 - j ∧ S - 1 - j < S ∧ 0 ≤ i ∧ i < S := by omega
  have b3 : 0 ≤ S - 1 - i ∧ S - 1 - i < S ∧ 0 ≤ S - 1 - j ∧ S - 1 - j < S := by omega
  have b4 : 0 ≤ j ∧ j < S ∧ 0 ≤ S - 1 - i ∧ S - 1 - i < S := by omega
  have key : ∀ x, rotate_right_body S i j m = x → ∃ m', x = .ok m' ∧
      ∀ r c, m' r c = if (r, c) ∈ cycleCells S i j then m (S - 1 - c) r else m r c := by
    intro x hx
    simp only [rotate_right_body, Matrix.get_ok _ b1, Matrix.get_ok _ b2, Matrix.get_ok _ b3,
      Matrix.get_ok _ b4, Matrix.set_ok _ _ b1, Matrix.set_ok _ _ b2, Matrix.set_ok _ _ b3,
      Matrix.set_ok _ _ b4, ok_bind] at hx
    subst hx
    refine ⟨_, rfl, ?_⟩
    intro r c
    simp only [mem_cycleCells]
    split_ifs <;> first | rfl | omega | (congr 1 <;> omega)
  exact key _ rfl


theorem rotate_left_body_spec {S i j : Int} (h : LoopPair S i j) (m : Matrix) :
    ∃ m', rotate_left_body S i j m = .ok m' ∧
      ∀ r c, m' r c = if (r, c) ∈ cycleCells S i j then m c (S - 1 - r) else m r c := by
  obtain ⟨h0, h1, h2, h3⟩ := h
  have b1 : 0 ≤ i ∧ i < S ∧ 0 ≤ j ∧ j < S := by omega
  have b2 : 0 ≤ S - 1 - j ∧ S - 1 - j < S ∧ 0 ≤ i ∧ i < S := by omega
  have b3 : 0 ≤ S - 1 - i ∧ S - 1 - i < S ∧ 0 ≤ S - 1 - j ∧ S - 1 - j < S := by omega
  have b4 : 0 ≤ j ∧ j < S ∧ 0 ≤ S - 1 - i ∧ S - 1 - i < S := by omega
  have key : ∀ x, rotate_left_body S i j m = x → ∃ m', x = .ok m' ∧
      ∀ r c, m' r c = if (r, c) ∈ cycleCells S i j then m c (S - 1 - r) else m r c := by
    intro x hx
    simp only [rotate_left_body, Matrix.get_ok _ b1, Matrix.get_ok _ b2, Matrix.get_ok _ b3,
      Matrix.get_ok _ b4, Matrix.set_ok _ _ b1, Matrix.set_ok _ _ b2, Matrix.set_ok _ _ b3,
      Matrix.set_ok _ _ b4, ok_bind] at hx
    subst hx
    refine ⟨_, rfl, ?_⟩
    intro r c
    simp only [mem_cycleCells]
    split_ifs <;> first | rfl | omega | (congr 1 <;> omega)
  exact key _ rfl

/-! ### Loop rules -/

theorem forLoop_inv {σ : Type} (body : Int → σ → Except Fault σ) (Inv : Int → σ → Prop) :
    ∀ (n : Nat) (k : Int) (s : σ), Inv k s →
      (∀ k' s', k ≤ k' → k' < k + n → Inv k' s' →
        ∃ t, body k' s' = .ok t ∧ Inv (k' + 1) t) →
      ∃ t, forLoop body n k s = .ok t ∧ Inv (k + n) t := by
  intro n
  induction n with
  | zero =>
    intro k s h0 _
    exact ⟨s, rfl, by simpa using h0⟩
  | succ n ih =>
    intro k s h0 hstep
    obtain ⟨t, ht, hInv⟩ := hstep k s (le_refl k) (by push_cast; omega) h0
    obtain ⟨u, hu, hInvu⟩ := ih (k + 1) t hInv (fun k' s' h1 h2 h3 =>
      hstep k' s' (by omega) (by push_cast; omega) h3)
    refine ⟨u, ?_, ?_⟩
    · simp only [forLoop, ht, hu]
    · have e : k + ((n + 1 : Nat) : Int) = k + 1 + (n : Int) := by push_cast; omega
      rw [e]; exact hInvu

theorem forRange_inv {σ : Type} (body : Int → σ → Except Fault σ) (Inv : Int → σ → Prop)
    {lo hi : Int} (hle : lo ≤ hi) (s : σ) (h0 : Inv lo s)
    (hstep : ∀ k s', lo ≤ k → k < hi → Inv k s' → ∃ t, body k s' = .ok t ∧ Inv (k + 1) t) :
    ∃ t, forRange lo hi body s = .ok t ∧ Inv hi t := by
  have e : lo + (((hi - lo).toNat : Nat) : Int) = hi := by omega
  obtain ⟨t, ht, hInv⟩ := forLoop_inv body Inv (hi - lo).toNat lo s h0
    (fun k s' h1 h2 h3 => hstep k s' h1 (by omega) h3)
  exact ⟨t, ht, by rw [e] at hInv; exact hInv⟩

theorem forRange_empty {σ : Type} (body : Int → σ → Except Fault σ) {lo hi : Int}
    (h : hi ≤ lo) (s : σ) : forRange lo hi body s = .ok s := by
  have e : (hi - lo).toNat = 0 := by omega
  simp [forRange, e, forLoop]

/-- The defining equation of the C `for` loop. -/
theorem forRange_unfold {σ : Type} (body : Int → σ → Except Fault σ) (lo hi : Int) (s : σ) :
    forRange lo hi body s =
      if lo < hi then body lo s >>= forRange (lo + 1) hi body else .ok s := by
  split_ifs with h
  · have e : (hi - lo).toNat = (hi - (lo + 1)).toNat + 1 := by omega
    simp only [forRange, e, forLoop]
    cases body lo s <;> rfl
  · exact forRange_empty body (by omega) s


/-! ### One pass over all loop pairs -/

theorem cycleCells_inBounds {S i j r c : Int} (h : LoopPair S i j)
    (hc : (r, c) ∈ cycleCells S i j) : 0 ≤ r ∧ r < S ∧ 0 ≤ c ∧ c < S := by
  obtain ⟨h0, h1, h2, h3⟩ := h
  rw [mem_cycleCells] at hc
  omega

theorem cycleCells_disjoint {S i j i' j' r c : Int} (h : LoopPair S i j)
    (h' : LoopPair S i' j') (hc : (r, c) ∈ cycleCells S i j)
    (hc' : (r, c) ∈ cycleCells S i' j') : i = i' ∧ j = j' := by
  obtain ⟨h0, h1, h2, h3⟩ := h
  obtain ⟨h0', h1', h2', h3'⟩ := h'
  rw [mem_cycleCells] at hc hc'
  omega

theorem cycleCells_cover {S r c : Int} (hb : 0 ≤ r ∧ r < S ∧ 0 ≤ c ∧ c < S)
    (hne : ¬ (r = c ∧ r + c = S - 1)) :
    ∃ i j, LoopPair S i j ∧ (r, c) ∈ cycleCells S i j := by
  simp only [mem_cycleCells, LoopPair]
  by_cases h1 : r ≤ c
  · by_cases h2 : r + c < S - 1
    · exact ⟨r, c, by omega, by omega⟩
    · by_cases h3 : r < c
      · exact ⟨S - 1 - c, r, by omega, by omega⟩
      · exact ⟨S - 1 - r, S - 1 - c, by omega, by omega⟩
  · by_cases h2 : r + c ≤ S - 1
    · exact ⟨c, S - 1 - r, by omega, by omega⟩
    · exact ⟨S - 1 - r, S - 1 - c, by omega, by omega⟩

theorem PassInv.congr {S : Int} {src : Int → Int → Int × Int} {B m : Matrix}
    {P Q : Int → Int → Prop} (h : PassInv S src B P m)
    (hPQ : ∀ i j, LoopPair S i j → (P i j ↔ Q i j)) : PassInv S src B Q m := by
  have e : ∀ r c, Processed S Q r c ↔ Processed S P r c := by
    intro r c
    constructor
    · rintro ⟨i, j, hq, hl, hc⟩
      exact ⟨i, j, (hPQ i j hl).2 hq, hl, hc⟩
    · rintro ⟨i, j, hp, hl, hc⟩
      exact ⟨i, j, (hPQ i j hl).1 hp, hl, hc⟩
  intro r c
  rw [e]
  exact h r c

theorem PassInv.step {S : Int} {src : Int → Int → Int × Int} {B m m' : Matrix}
    {P : Int → Int → Prop} {i j : Int} (h : PassInv S src B P m) (hl : LoopPair S i j)
    (hP : ¬ P i j)
    (hsrc : ∀ r c, (r, c) ∈ cycleCells S i j → ((src r c).1, (src r c).2) ∈ cycleCells S i j)
    (hm' : ∀ r c, m' r c =
      if (r, c) ∈ cycleCells S i j then m (src r c).1 (src r c).2 else m r c) :
    PassInv S src B (fun a b => P a b ∨ (a = i ∧ b = j)) m' := by
  have fresh : ∀ r c, (r, c) ∈ cycleCells S i j → ¬ Processed S P r c := by
    rintro r c hc ⟨a, b, hp, hab, hc'⟩
    obtain ⟨rfl, rfl⟩ := cycleCells_disjoint hl hab hc hc'
    exact hP hp
  intro r c
  rw [hm' r c]
  constructor
  · rintro ⟨a, b, hp | ⟨rfl, rfl⟩, hab, hc⟩
    · have hn : (r, c) ∉ cycleCells S i j := fun hc' => fresh r c hc' ⟨a, b, hp, hab, hc⟩
      rw [if_neg hn]
      exact (h r c).1 ⟨a, b, hp, hab, hc⟩
    · rw [if_pos hc]
      exact (h _ _).2 (fresh _ _ (hsrc r c hc))
  · intro hn
    have hn1 : (r, c) ∉ cycleCells S i j := fun hc => hn ⟨i, j, Or.inr ⟨rfl, rfl⟩, hl, hc⟩
    have hn2 : ¬ Processed S P r c := fun ⟨a, b, hp, hab, hc⟩ => hn ⟨a, b, Or.inl hp, hab, hc⟩
    rw [if_neg hn1]
    exact (h r c).2 hn2

theorem pass_spec (S : Int) (src : Int → Int → Int × Int)
    (body : Int → Int → Matrix → Except Fault Matrix)
    (hsrc : ∀ i j r c, (r, c) ∈ cycleCells S i j →
      ((src r c).1, (src r c).2) ∈ cycleCells S i j)
    (hbody : ∀ i j m, LoopPair S i j → ∃ m', body i j m = .ok m' ∧ ∀ r c, m' r c =
      if (r, c) ∈ cycleCells S i j then m (src r c).1 (src r c).2 else m r c)
    (B : Matrix) :
    ∃ B', forRange 0 (S / 2) (fun i m => forRange i (S - i - 1) (body i) m) B = .ok B' ∧
      PassInv S src B (fun _ _ => True) B' := by
  by_cases hS : 0 ≤ S / 2
  · obtain ⟨B', hB', hInv⟩ := forRange_inv (fun i m => forRange i (S - i - 1) (body i) m)
      (fun i m => PassInv S src B (fun a _ => a < i) m) hS B
      (by
        intro r c
        refine ⟨?_, fun _ => rfl⟩
        rintro ⟨a, b, ha, hab, -⟩
        have := hab.1
        omega)
      (by
        intro i m hi0 hi1 hm
        obtain ⟨t, ht, hInv⟩ := forRange_inv (body i)
          (fun j m => PassInv S src B (fun a b => a < i ∨ (a = i ∧ b < j)) m)
          (show i ≤ S - i - 1 by omega) m
          (hm.congr (fun a b hab => by have := hab.2.2.1; constructor <;> intro <;> omega))
          (by
            intro j m1 hj0 hj1 hm1
            have hl : LoopPair S i j := ⟨hi0, hi1, hj0, hj1⟩
            obtain ⟨m2, hm2, hspec⟩ := hbody i j m1 hl
            refine ⟨m2, hm2, ?_⟩
            exact (hm1.step hl (by omega) (hsrc i j) hspec).congr
              (fun a b _ => by constructor <;> intro <;> omega))
        refine ⟨t, ht, hInv.congr (fun a b hab => ?_)⟩
        have := hab.2.2.2
        constructor <;> intro <;> omega)
    exact ⟨B', hB', hInv.congr (fun a b hab => by have := hab.2.1; simp; omega)⟩
  · refine ⟨B, forRange_empty _ (by omega) B, ?_⟩
    intro r c
    refine ⟨?_, fun _ => rfl⟩
    rintro ⟨a, b, -, hab, -⟩
    obtain ⟨h0, h1, -, -⟩ := hab
    omega


theorem rotate_right_eq (S : Int) (B : Matrix) : rotate_right S B = .ok (clockwise S B) := by
  obtain ⟨B', hB', hInv⟩ := pass_spec S (fun r c => (S - 1 - c, r)) (rotate_right_body S)
    (by intro i j r c; simp only [mem_cycleCells]; omega)
    (fun i j m h => rotate_right_body_spec h m) B
  have e : B' = clockwise S B := by
    funext r c
    simp only [clockwise]
    by_cases hp : Processed S (fun _ _ => True) r c
    · obtain ⟨i, j, -, hl, hc⟩ := hp
      rw [if_pos (cycleCells_inBounds hl hc)]
      exact (hInv r c).1 ⟨i, j, trivial, hl, hc⟩
    · rw [(hInv r c).2 hp]
      split_ifs with hb
      · by_cases hne : r = c ∧ r + c = S - 1
        · congr 1 <;> omega
        · obtain ⟨i, j, hl, hc⟩ := cycleCells_cover hb hne
          exact absurd ⟨i, j, trivial, hl, hc⟩ hp
      · rfl
  rw [← e]
  exact hB'

theorem rotate_left_eq (S : Int) (B : Matrix) :
    rotate_left S B = .ok (counterClockwise S B) := by
  obtain ⟨B', hB', hInv⟩ := pass_spec S (fun r c => (c, S - 1 - r)) (rotate_left_body S)
    (by intro i j r c; simp only [mem_cycleCells]; omega)
    (fun i j m h => rotate_left_body_spec h m) B
  have e : B' = counterClockwise S B := by
    funext r c
    simp only [counterClockwise]
    by_cases hp : Processed S (fun _ _ => True) r c
    · obtain ⟨i, j, -, hl, hc⟩ := hp
      rw [if_pos (cycleCells_inBounds hl hc)]
      exact (hInv r c).1 ⟨i, j, trivial, hl, hc⟩
    · rw [(hInv r c).2 hp]
      split_ifs with hb
      · by_cases hne : r = c ∧ r + c = S - 1
        · congr 1 <;> omega
        · obtain ⟨i, j, hl, hc⟩ := cycleCells_cover hb hne
          exact absurd ⟨i, j, trivial, hl, hc⟩ hp
      · rfl
  rw [← e]
  exact hB'

theorem clockwise_counterClockwise (S : Int) (B : Matrix) :
    clockwise S (counterClockwise S B) = B := by
  funext r c
  simp only [clockwise, counterClockwise]
  split_ifs <;> first | rfl | omega | (congr 1; omega)

theorem counterClockwise_clockwise (S : Int) (B : Matrix) :
    counterClockwise S (clockwise S B) = B := by
  funext r c
  simp only [clockwise, counterClockwise]
  split_ifs <;> first | rfl | omega | (congr 1; omega)

theorem clockwise_four (S : Int) (B : Matrix) :
    clockwise S (clockwise S (clockwise S (clockwise S B))) = B := by
  funext r c
  simp only [clockwise]
  split_ifs <;> first | rfl | omega | (congr 1 <;> omega)

theorem counterClockwise_four (S : Int) (B : Matrix) :
    counterClockwise S (counterClockwise S (counterClockwise S (counterClockwise S B))) = B := by
  funext r c
  simp only [counterClockwise]
  split_ifs <;> first | rfl | omega | (congr 1 <;> omega)

/-! ### Sequences of passes -/

theorem forLoop_const (f : Matrix → Except Fault Matrix) (n : Nat) (k : Int) (B : Matrix) :
    forLoop (fun _ m => f m) n k B = passes f n B := by
  induction n generalizing k B with
  | zero => rfl
  | succ n ih =>
    simp only [forLoop, passes]
    cases h : f B with
    | error e => rfl
    | ok t => exact ih (k + 1) t

theorem rotate_eq_passes (S k m : Int) (B : Matrix) :
    rotate S k m B = passes (rotate_left S) m.toNat B >>= passes (rotate_right S) k.toNat := by
  simp only [rotate, forRange, forLoop_const, sub_zero]

theorem passes_rotate_right (S : Int) (n : Nat) (B : Matrix) :
    passes (rotate_right S) n B = .ok ((clockwise S)^[n] B) := by
  induction n generalizing B with
  | zero => rfl
  | succ n ih => simp only [passes, rotate_right_eq, ok_bind, ih, Function.iterate_succ_apply]

theorem passes_rotate_left (S : Int) (n : Nat) (B : Matrix) :
    passes (rotate_left S) n B = .ok ((counterClockwise S)^[n] B) := by
  induction n generalizing B with
  | zero => rfl
  | succ n ih => simp only [passes, rotate_left_eq, ok_bind, ih, Function.iterate_succ_apply]

theorem clockwise_iterate_mod (S : Int) (n : Nat) (B : Matrix) :
    (clockwise S)^[n] B = (clockwise S)^[n % 4] B := by
  have h4 : (clockwise S)^[4] = id := by
    funext B
    exact clockwise_four S B
  conv_lhs => rw [← Nat.mod_add_div n 4]
  rw [Function.iterate_add_apply, Function.iterate_mul, h4, Function.iterate_id]
  rfl

theorem counterClockwise_eq_three (S : Int) (B : Matrix) :
    counterClockwise S B = (clockwise S)^[3] B := by
  have h := clockwise_four S (counterClockwise S B)
  rw [clockwise_counterClockwise] at h
  exact h.symm

theorem counterClockwise_iterate (S : Int) (m : Nat) (B : Matrix) :
    (counterClockwise S)^[m] B = (clockwise S)^[3 * m] B := by
  have e : counterClockwise S = (clockwise S)^[3] := funext (counterClockwise_eq_three S)
  rw [e, Function.iterate_mul]

theorem rotate_eq_iterate (S : Int) (k m : Nat) (B : Matrix) :
    rotate S k m B = .ok ((clockwise S)^[(((k : Int) - (m : Int)) % 4).toNat] B) := by
  rw [rotate_eq_passes, Int.toNat_ofNat, Int.toNat_ofNat, passes_rotate_left, ok_bind,
    passes_rotate_right, counterClockwise_iterate, ← Function.iterate_add_apply,
    clockwise_iterate_mod]
  have e : (k + 3 * m) % 4 = (((k : Int) - (m : Int)) % 4).toNat := by omega
  rw [e]

theorem clockwise_iterate_center (S : Int) (hS : S % 2 = 1) (n : Nat) (B : Matrix) :
    ((clockwise S)^[n] B) ((S - 1) / 2) ((S - 1) / 2) = B ((S - 1) / 2) ((S - 1) / 2) := by
  induction n generalizing B with
  | zero => rfl
  | succ n ih =>
    rw [Function.iterate_succ_apply, ih]
    simp only [clockwise]
    split_ifs
    · congr 1
      omega
    · rfl


/-! ### Raster input -/

theorem forLoop_inv_fail {σ : Type} (body : Int → σ → Except Fault σ) (Inv : Int → σ → Prop)
    (e : Fault) (E : Prop) :
    ∀ (n : Nat) (k : Int) (s : σ), Inv k s →
      (∀ k' s', k ≤ k' → k' < k + n → Inv k' s' →
        (∃ t, body k' s' = .ok t ∧ Inv (k' + 1) t) ∨ (body k' s' = .error e ∧ E)) →
      (∃ t, forLoop body n k s = .ok t ∧ Inv (k + n) t) ∨
        (forLoop body n k s = .error e ∧ E) := by
  intro n
  induction n with
  | zero =>
    intro k s h0 _
    exact Or.inl ⟨s, rfl, by simpa using h0⟩
  | succ n ih =>
    intro k s h0 hstep
    rcases hstep k s (le_refl k) (by push_cast; omega) h0 with ⟨t, ht, hInv⟩ | ⟨hf, hE⟩
    · rcases ih (k + 1) t hInv (fun k' s' h1 h2 h3 =>
        hstep k' s' (by omega) (by push_cast; omega) h3) with ⟨u, hu, hInvu⟩ | ⟨hf, hE⟩
      · refine Or.inl ⟨u, ?_, ?_⟩
        · simp only [forLoop, ht, hu]
        · have e' : k + ((n + 1 : Nat) : Int) = k + 1 + (n : Int) := by push_cast; omega
          rw [e']; exact hInvu
      · refine Or.inr ⟨?_, hE⟩
        simp only [forLoop, ht, hf]
    · refine Or.inr ⟨?_, hE⟩
      simp only [forLoop, hf]

theorem forRange_inv_fail {σ : Type} (body : Int → σ → Except Fault σ) (Inv : Int → σ → Prop)
    (e : Fault) (E : Prop) {lo hi : Int} (hle : lo ≤ hi) (s : σ) (h0 : Inv lo s)
    (hstep : ∀ k s', lo ≤ k → k < hi → Inv k s' →
      (∃ t, body k s' = .ok t ∧ Inv (k + 1) t) ∨ (body k s' = .error e ∧ E)) :
    (∃ t, forRange lo hi body s = .ok t ∧ Inv hi t) ∨
      (forRange lo hi body s = .error e ∧ E) := by
  have e' : lo + (((hi - lo).toNat : Nat) : Int) = hi := by omega
  rcases forLoop_inv_fail body Inv e E (hi - lo).toNat lo s h0
    (fun k s' h1 h2 h3 => hstep k s' h1 (by omega) h3) with ⟨t, ht, hInv⟩ | h
  · exact Or.inl ⟨t, ht, by rw [e'] at hInv; exact hInv⟩
  · exact Or.inr h

theorem zero_matrix_eq (S : Int) (mat : Matrix) :
    zero_matrix S mat =
      .ok (fun r c => if 0 ≤ r ∧ r < S ∧ 0 ≤ c ∧ c < S then 0 else mat r c) := by
  by_cases hS : 0 ≤ S
  · obtain ⟨Z, hZ, hInv⟩ := forRange_inv
      (fun i m => forRange 0 S (fun j m => Matrix.set S m i j 0) m)
      (fun i m => ∀ r c, m r c = if 0 ≤ r ∧ r < i ∧ 0 ≤ c ∧ c < S then 0 else mat r c) hS mat
      (by intro r c; rw [if_neg (by omega)])
      (by
        intro i m hi0 hi1 hm
        obtain ⟨t, ht, hInv⟩ := forRange_inv (fun j m => Matrix.set S m i j 0)
          (fun j m => ∀ r c, m r c =
            if 0 ≤ r ∧ 0 ≤ c ∧ c < S ∧ (r < i ∨ (r = i ∧ c < j)) then 0 else mat r c) hS m
          (by
            intro r c
            rw [hm r c]
            by_cases hc : 0 ≤ r ∧ r < i ∧ 0 ≤ c ∧ c < S
            · rw [if_pos hc, if_pos (by omega)]
            · rw [if_neg hc, if_neg (by omega)])
          (by
            intro j m1 hj0 hj1 hm1
            refine ⟨_, Matrix.set_ok m1 0 ⟨hi0, hi1, hj0, hj1⟩, ?_⟩
            intro r c
            simp only [hm1 r c]
            split_ifs <;> first | rfl | omega)
        refine ⟨t, ht, ?_⟩
        intro r c
        rw [hInv r c]
        by_cases hc : 0 ≤ r ∧ r < i + 1 ∧ 0 ≤ c ∧ c < S
        · rw [if_pos hc, if_pos (by omega)]
        · rw [if_neg hc, if_neg (by omega)])
    rw [zero_matrix, hZ]
    congr 1
    funext r c
    exact hInv r c
  · rw [zero_matrix, forRange_empty _ (by omega)]
    congr 1
    funext r c
    rw [if_neg (by omega)]

theorem read_one {fd : Fd} (h : fd.pos < fd.content.length) :
    read fd 1 = ([fd.content[fd.pos]], { fd with pos := fd.pos + 1 }) := by
  simp only [read, List.drop_eq_getElem_cons h, List.take_succ_cons, List.take_zero,
    List.length_singleton]

theorem read_eof {fd : Fd} (h : fd.content.length ≤ fd.pos) : (read fd 1).1 = [] := by
  simp only [read, List.drop_eq_nil_of_le h, List.take_nil]

theorem read_pgm_data_body_step {W H S : Int} (hW : 0 ≤ W) (hWS : W ≤ S) (hHS : H ≤ S)
    (content : List Byte) (p0 : Nat) (Z : Matrix) {i j : Int} (st : Fd × Matrix)
    (hi0 : 0 ≤ i) (hi1 : i < H) (hj0 : 0 ≤ j) (hj1 : j < W)
    (hInv : DataInv W content p0 Z i j st) :
    (∃ t, read_pgm_data_body S i j st = .ok t ∧ DataInv W content p0 Z i (j + 1) t) ∨
      (read_pgm_data_body S i j st = .error (.exitFailure .readData) ∧
        (content.length : Int) < p0 + W * H) := by
  obtain ⟨hc, hp, hle, hcells⟩ := hInv
  have hb : 0 ≤ i ∧ i < S ∧ 0 ≤ j ∧ j < S := by omega
  by_cases hlt : st.1.pos < st.1.content.length
  · left
    refine ⟨((read st.1 1).2, fun r c => if r = i ∧ c = j then st.1.content[st.1.pos] else
      st.2 r c), ?_, ?_⟩
    · simp only [read_pgm_data_body, Matrix.get_ok _ hb, ok_bind, read_one hlt,
        Matrix.set_ok _ _ hb]
      rfl
    · rw [read_one hlt]
      refine ⟨hc, ?_, ?_, ?_⟩
      · show ((st.1.pos + 1 : Nat) : Int) = p0 + W * i + (j + 1)
        omega
      · show st.1.pos + 1 ≤ content.length
        rw [← hc]; omega
      · intro r c
        show (if r = i ∧ c = j then st.1.content[st.1.pos] else st.2 r c) = _
        by_cases hrc : r = i ∧ c = j
        · obtain ⟨rfl, rfl⟩ := hrc
          rw [if_pos ⟨rfl, rfl⟩, if_pos (by omega)]
          have e : (p0 + W * r + c).toNat = st.1.pos := by omega
          rw [e, ← hc, List.getD_eq_getElem _ _ hlt]
        · rw [if_neg hrc, hcells r c]
          by_cases hin : 0 ≤ r ∧ 0 ≤ c ∧ c < W ∧ (r < i ∨ (r = i ∧ c < j))
          · rw [if_pos hin, if_pos (by omega)]
          · rw [if_neg hin, if_neg (by omega)]
  · right
    constructor
    · simp only [read_pgm_data_body, Matrix.get_ok _ hb, ok_bind, read_eof (not_lt.mp hlt)]
    · have h1 : W * (i + 1) ≤ W * H := Int.mul_le_mul_of_nonneg_left (by omega) hW
      have h2 : W * (i + 1) = W * i + W := by ring
      rw [hc] at hlt
      omega

theorem read_pgm_data_spec {W H S : Int} (hW : 0 ≤ W) (hWS : W ≤ S) (hH : 0 ≤ H) (hHS : H ≤ S)
    (content : List Byte) (p0 : Nat) (hp0 : p0 ≤ content.length) (Z : Matrix) :
    (∃ t, read_pgm_data W H S { content := content, pos := p0 } Z = .ok t ∧
        DataInv W content p0 Z H 0 t) ∨
      (read_pgm_data W H S { content := content, pos := p0 } Z =
          .error (.exitFailure .readData) ∧ (content.length : Int) < p0 + W * H) := by
  refine forRange_inv_fail _ (fun i st => DataInv W content p0 Z i 0 st) _ _ hH _ ?_ ?_
  · refine ⟨rfl, ?_, hp0, ?_⟩
    · show ((p0 : Nat) : Int) = p0 + W * 0 + 0
      omega
    · intro r c
      rw [if_neg (by omega)]
  · intro i st hi0 hi1 hst
    rcases forRange_inv_fail (fun j st => read_pgm_data_body S i j st)
      (fun j st => DataInv W content p0 Z i j st) (.exitFailure .readData)
      ((content.length : Int) < p0 + W * H) hW st hst
      (fun j st' hj0 hj1 hst' =>
        read_pgm_data_body_step hW hWS hHS content p0 Z st' hi0 hi1 hj0 hj1 hst')
      with ⟨t, ht, hc, hp, hle, hcells⟩ | h
    · refine Or.inl ⟨t, ht, hc, ?_, hle, ?_⟩
      · have h2 : W * (i + 1) = W * i + W := by ring
        omega
      · intro r c
        rw [hcells r c]
        by_cases hin : 0 ≤ r ∧ 0 ≤ c ∧ c < W ∧ (r < i ∨ (r = i ∧ c < W))
        · rw [if_pos hin, if_pos (by omega)]
        · rw [if_neg hin, if_neg (by omega)]
    · exact Or.inr h

theorem read_pgm_header_short {input : List Byte} (h : input.length < 38) (header0 : Header) :
    read_pgm_header { content := input, pos := 0 } header0 =
      .error (.exitFailure .readHeader) := by
  have e : (read { content := input, pos := 0 } 38).1.length ≠ 38 := by
    simp only [read, List.drop_zero, List.length_take]
    omega
  simp only [read_pgm_header, if_pos e]

theorem read_pgm_header_ok {input : List Byte} (h : 38 ≤ input.length) (header0 : Header) :
    read_pgm_header { content := input, pos := 0 } header0 =
      .ok ({ content := input, pos := 38 }, header0.store (input.take 38)) := by
  have e : (input.take 38).length = 38 := by
    rw [List.length_take]
    omega
  simp only [read_pgm_header, read, List.drop_zero, e, ne_eq, not_true_eq_false, if_false,
    Nat.zero_add]

/-- The buffer `load` builds from a long enough input. -/
theorem load_spec {W H S : Int} (hW : 0 ≤ W) (hWS : W ≤ S) (hH : 0 ≤ H) (hHS : H ≤ S)
    (input : List Byte) (header0 : Header) (P0 : Matrix) :
    (input.length < 38 →
      load W H S input header0 P0 = .error (.exitFailure .readHeader)) ∧
    (38 ≤ input.length → (input.length : Int) < 38 + W * H →
      load W H S input header0 P0 = .error (.exitFailure .readData)) ∧
    (38 + W * H ≤ (input.length : Int) →
      load W H S input header0 P0 = .ok (header0.store (input.take 38), fun r c =>
        if 0 ≤ r ∧ r < H ∧ 0 ≤ c ∧ c < W then input.getD (38 + W * r + c).toNat 0
        else if 0 ≤ r ∧ r < S ∧ 0 ≤ c ∧ c < S then 0 else P0 r c)) := by
  have hWH : 0 ≤ W * H := Int.mul_nonneg hW hH
  refine ⟨fun h => ?_, fun h1 h2 => ?_, fun h => ?_⟩
  · simp only [load, zero_matrix_eq, ok_bind, read_pgm_header_short h]
    rfl
  · rcases read_pgm_data_spec hW hWS hH hHS input 38 h1
      (fun r c => if 0 ≤ r ∧ r < S ∧ 0 ≤ c ∧ c < S then 0 else P0 r c)
      with ⟨t, -, -, hp, hle, -⟩ | ⟨hf, -⟩
    · exfalso
      push_cast at hp
      omega
    · simp only [load, zero_matrix_eq, ok_bind, read_pgm_header_ok h1, hf]
      rfl
  · have h1 : 38 ≤ input.length := by omega
    rcases read_pgm_data_spec hW hWS hH hHS input 38 h1
      (fun r c => if 0 ≤ r ∧ r < S ∧ 0 ≤ c ∧ c < S then 0 else P0 r c)
      with ⟨t, ht, -, -, -, hcells⟩ | ⟨-, hE⟩
    · obtain ⟨fd, B⟩ := t
      simp only [load, zero_matrix_eq, ok_bind, read_pgm_header_ok h1, ht]
      show Except.ok (header0.store (input.take 38), B) = _
      congr 2
      funext r c
      have hrc : B r c = _ := hcells r c
      rw [hrc]
      by_cases hin : 0 ≤ r ∧ r < H ∧ 0 ≤ c ∧ c < W
      · rw [if_pos (by omega), if_pos hin]
        rfl
      · rw [if_neg (by omega), if_neg hin]
    · exfalso
      push_cast at hE
      omega

theorem getD_take_of_lt (l : List Byte) {k n : Nat} (h : k < n) :
    (l.take n).getD k 0 = l.getD k 0 := by
  simp only [List.getD_eq_getElem?_getD, List.getElem?_take, if_pos h]

theorem getElem?_eq_some_getD (l : List Byte) {k : Nat} (h : k < l.length) :
    l[k]? = some (l.getD k 0) := by
  rw [List.getD_eq_getElem _ _ h, List.getElem?_eq_getElem h]

theorem Header.store_apply (header : Header) (got : List Byte) {k : Nat} (h : k < got.length) :
    header.store got (k : Int) = got.getD k 0 := by
  simp only [Header.store]
  rw [if_pos (by omega), Int.toNat_ofNat]

/-- The outcome of `load` with the compiled dimensions. -/
theorem load_compiled (input : List Byte) (header0 : Header) (P0 : Matrix) :
    (input.length < 38 →
      load DIMX DIMY SQDIM input header0 P0 = .error (.exitFailure .readHeader)) ∧
    (38 ≤ input.length → input.length < 38 + 690 * 920 →
      load DIMX DIMY SQDIM input header0 P0 = .error (.exitFailure .readData)) ∧
    (38 + 690 * 920 ≤ input.length →
      load DIMX DIMY SQDIM input header0 P0 = .ok (header0.store (input.take 38), fun r c =>
        if 0 ≤ r ∧ r < 920 ∧ 0 ≤ c ∧ c < 690 then input.getD (38 + 690 * r + c).toNat 0
        else if 0 ≤ r ∧ r < 920 ∧ 0 ≤ c ∧ c < 920 then 0 else P0 r c)) := by
  have hX : DIMX = 690 := rfl
  have hY : DIMY = 920 := rfl
  have hS : SQDIM = 920 := by decide
  obtain ⟨h1, h2, h3⟩ := load_spec (W := DIMX) (H := DIMY) (S := SQDIM) (by decide) (by decide)
    (by decide) (by decide) input header0 P0
  rw [hX, hY, hS] at h1 h2 h3
  exact ⟨h1, fun a b => h2 a (by omega), fun a => h3 (by omega)⟩

/-- With `DIMX = 2`, `DIMY = 3`, `SQDIM = 3`, the 46-byte test file loads into
the header bytes `0 .. 37` and the rows `38 39 0`, `40 41 0`, `42 43 0`; cut to
43 bytes it ends in the data-read error, cut to 37 in the header-read error. -/
theorem load_small_example :
    (load 2 3 3 smallInput (fun _ => 0) (fun _ _ => 9)).toOption.map
        (fun p => ((List.range 38).map (fun k => p.1 (k : Int)), p.2.rows 3)) =
      some ((List.range 38).map Fin.ofNat, [[38, 39, 0], [40, 41, 0], [42, 43, 0]]) ∧
    (match load 2 3 3 (smallInput.take 43) (fun _ => 0) (fun _ _ => 9) with
      | .error (.exitFailure .readData) => true
      | _ => false) = true ∧
    (match load 2 3 3 (smallInput.take 37) (fun _ => 0) (fun _ _ => 9) with
      | .error (.exitFailure .readHeader) => true
      | _ => false) = true := by
  refine ⟨by decide, by decide, by decide⟩

/-! ### Raster output -/

theorem write_ok (out : OutFd) (bytes : List Byte) (h : bytes.length ≤ out.room) :
    write out bytes =
      (bytes.length, { written := out.written ++ bytes, room := out.room - bytes.length }) := by
  simp only [write, List.take_of_length_le h]

theorem write_short (out : OutFd) (bytes : List Byte) (h : out.room < bytes.length) :
    (write out bytes).1 = out.room := by
  simp only [write, List.length_take]
  omega

theorem getElem?_append_of_some {l : List Byte} (l' : List Byte) {k : Nat} {x : Byte}
    (h : l[k]? = some x) : (l ++ l')[k]? = some x := by
  have hk : k < l.length := by
    rcases List.getElem?_eq_some.mp h with ⟨hk, -⟩
    exact hk
  rw [List.getElem?_append_left hk, h]

theorem Header.bytes_length (header : Header) (n : Nat) : (header.bytes n).length = n := by
  simp only [Header.bytes, List.length_map, List.length_range]

theorem Header.bytes_getElem? (header : Header) {n k : Nat} (h : k < n) :
    (header.bytes n)[k]? = some (header (k : Int)) := by
  rw [Header.bytes, List.getElem?_map, List.getElem?_range h]
  rfl

theorem write_pgm_body_step {S : Int} (hS : 0 ≤ S) (mat : Matrix) (w0 : List Byte)
    (room0 : Nat) {i j : Int} (out : OutFd)
    (hi0 : 0 ≤ i) (hi1 : i < S) (hj0 : 0 ≤ j) (hj1 : j < S)
    (hInv : OutInv S mat w0 room0 i j out) :
    (∃ t, write_pgm_body S mat i j out = .ok t ∧ OutInv S mat w0 room0 i (j + 1) t) ∨
      (write_pgm_body S mat i j out = .error (.exitFailure .writeData) ∧
        (room0 : Int) < S * S) := by
  obtain ⟨d, hw, hlen, hroom, hcells⟩ := hInv
  have hb : 0 ≤ i ∧ i < S ∧ 0 ≤ j ∧ j < S := ⟨hi0, hi1, hj0, hj1⟩
  by_cases hr : 1 ≤ out.room
  · left
    have hwr : write out [mat i j] =
        (1, { written := out.written ++ [mat i j], room := out.room - 1 }) :=
      write_ok out [mat i j] hr
    refine ⟨{ written := out.written ++ [mat i j], room := out.room - 1 }, ?_, ?_⟩
    · simp only [write_pgm_body, Matrix.get_ok _ hb, ok_bind, hwr, ne_eq, not_true_eq_false,
        if_false]
      rfl
    · refine ⟨d ++ [mat i j], ?_, ?_, ?_, ?_⟩
      · show out.written ++ [mat i j] = w0 ++ (d ++ [mat i j])
        rw [hw, List.append_assoc]
      · rw [List.length_append, List.length_singleton]
        push_cast
        omega
      · show ((out.room - 1 : Nat) : Int) + S * i + (j + 1) = room0
        omega
      · intro r c hrc
        by_cases he : r = i ∧ c = j
        · obtain ⟨rfl, rfl⟩ := he
          have e : (S * r + c).toNat = d.length := by omega
          rw [e, List.getElem?_append_right (le_refl _), Nat.sub_self]
          rfl
        · exact getElem?_append_of_some _ (hcells r c (by omega))
  · right
    constructor
    · have hwr : (write out [mat i j]).1 = out.room :=
        write_short out [mat i j] (by simp only [List.length_singleton]; omega)
      simp only [write_pgm_body, Matrix.get_ok _ hb, ok_bind, hwr]
      rw [if_pos (by omega)]
    · have h1 : S * (i + 1) ≤ S * S := Int.mul_le_mul_of_nonneg_left (by omega) hS
      have h2 : S * (i + 1) = S * i + S := by ring
      omega

theorem write_pgm_data_spec {S : Int} (hS : 0 ≤ S) (mat : Matrix) (out : OutFd) :
    (∃ t, forRange 0 S (fun i o => forRange 0 S (fun j o => write_pgm_body S mat i j o) o)
          out = .ok t ∧ OutInv S mat out.written out.room S 0 t) ∨
      (forRange 0 S (fun i o => forRange 0 S (fun j o => write_pgm_body S mat i j o) o)
          out = .error (.exitFailure .writeData) ∧ (out.room : Int) < S * S) := by
  refine forRange_inv_fail _ (fun i o => OutInv S mat out.written out.room i 0 o) _ _ hS _ ?_ ?_
  · refine ⟨[], (List.append_nil _).symm, ?_, ?_, ?_⟩
    · simp
    · simp
    · intro r c hrc
      omega
  · intro i o hi0 hi1 ho
    rcases forRange_inv_fail (fun j o => write_pgm_body S mat i j o)
      (fun j o => OutInv S mat out.written out.room i j o) (.exitFailure .writeData)
      ((out.room : Int) < S * S) hS o ho
      (fun j o' hj0 hj1 ho' => write_pgm_body_step hS mat _ _ o' hi0 hi1 hj0 hj1 ho')
      with ⟨t, ht, d, hw, hlen, hroom, hcells⟩ | h
    · have h2 : S * (i + 1) = S * i + S := by ring
      refine Or.inl ⟨t, ht, d, hw, by omega, by omega, ?_⟩
      intro r c hrc
      exact hcells r c (by omega)
    · exact Or.inr h

theorem write_pgm_spec {S : Int} (hS : 0 ≤ S) (out : OutFd) (header : Header) (mat : Matrix) :
    (out.room < 38 → write_pgm S out header mat = .error (.exitFailure .writeHeader)) ∧
    (38 ≤ out.room → (out.room : Int) < 38 + S * S →
      write_pgm S out header mat = .error (.exitFailure .writeData)) ∧
    (38 + S * S ≤ (out.room : Int) →
      ∃ t d, write_pgm S out header mat = .ok t ∧
        t.written = out.written ++ (header.bytes 38 ++ d) ∧ (d.length : Int) = S * S ∧
        ∀ r c, 0 ≤ r → r < S → 0 ≤ c → c < S → d[(S * r + c).toNat]? = some (mat r c)) := by
  have hSS : 0 ≤ S * S := Int.mul_nonneg hS hS
  have hlen := Header.bytes_length header 38
  refine ⟨fun h => ?_, fun h1 h2 => ?_, fun h => ?_⟩
  · have hwr : (write out (header.bytes 38)).1 = out.room := write_short _ _ (by omega)
    rw [write_pgm, hwr, if_pos (by omega)]
  · have hwr : write out (header.bytes 38) =
        (38, { written := out.written ++ header.bytes 38, room := out.room - 38 }) := by
      rw [write_ok _ _ (by omega), hlen]
    rw [write_pgm, hwr, if_neg (by simp)]
    rcases write_pgm_data_spec hS mat
        { written := out.written ++ header.bytes 38, room := out.room - 38 } with ⟨t, -, d, -, hd, hroom, -⟩ | ⟨hf, -⟩
    · exfalso
      have hroom' : (t.room : Int) + S * S + 0 = ((out.room - 38 : Nat) : Int) := hroom
      omega
    · exact hf
  · have h38 : 38 ≤ out.room := by omega
    have hwr : write out (header.bytes 38) =
        (38, { written := out.written ++ header.bytes 38, room := out.room - 38 }) := by
      rw [write_ok _ _ (by omega), hlen]
    rw [write_pgm, hwr, if_neg (by simp)]
    rcases write_pgm_data_spec hS mat
        { written := out.written ++ header.bytes 38, room := out.room - 38 } with ⟨t, ht, d, hw, hd, -, hcells⟩ | ⟨-, hE⟩
    · refine ⟨t, d, ht, ?_, by omega, ?_⟩
      · rw [hw, List.append_assoc]
      · intro r c h0 h1 h2 h3
        exact hcells r c (by omega)
    · exfalso
      have hE' : ((out.room - 38 : Nat) : Int) < S * S := hE
      omega

theorem Header.set_inBounds {cap : Int} (header : Header) {k : Int} (v : Byte)
    (h : 0 ≤ k ∧ k < cap) :
    header.set cap k v = .ok (fun k' => if k' = k then v else header k') := by
  simp only [Header.set, if_pos h]

theorem patch_header_eq (header : Header) :
    patch_header header = .ok (patchedHeader header) := by
  simp only [patch_header, Header.set_inBounds _ _ (show (0 : Int) ≤ 26 ∧ (26 : Int) < 80 by decide),
    Header.set_inBounds _ _ (show (0 : Int) ≤ 27 ∧ (27 : Int) < 80 by decide),
    Header.set_inBounds _ _ (show (0 : Int) ≤ 28 ∧ (28 : Int) < 80 by decide),
    Header.set_inBounds _ _ (show (0 : Int) ≤ 30 ∧ (30 : Int) < 80 by decide),
    Header.set_inBounds _ _ (show (0 : Int) ≤ 31 ∧ (31 : Int) < 80 by decide),
    Header.set_inBounds _ _ (show (0 : Int) ≤ 32 ∧ (32 : Int) < 80 by decide), ok_bind]
  show Except.ok _ = Except.ok _
  congr 1
  funext k
  simp only [patchedHeader]
  split_ifs <;> first | rfl | omega

theorem rotate_eq_turns (S k m : Int) (B : Matrix) :
    rotate S k m B =
      .ok ((clockwise S)^[k.toNat] ((counterClockwise S)^[m.toNat] B)) := by
  rw [rotate_eq_passes, passes_rotate_left, ok_bind, passes_rotate_right]

theorem main_spec {W H S : Int} (hW : 0 ≤ W) (hWS : W ≤ S) (hH : 0 ≤ H) (hHS : H ≤ S)
    (input : List Byte) (room : Nat) (k m : Int) (header0 : Header) (P0 : Matrix)
    (hin : 38 + W * H ≤ (input.length : Int)) (hroom : 38 + S * S ≤ (room : Int)) :
    ∃ d, main W H S input room k m header0 P0 =
        .ok ((patchedHeader (header0.store (input.take 38))).bytes 38 ++ d) ∧
      (d.length : Int) = S * S ∧
      ∀ r c, 0 ≤ r → r < S → 0 ≤ c → c < S → d[(S * r + c).toNat]? =
        some (((clockwise S)^[k.toNat] ((counterClockwise S)^[m.toNat]
          (loadedBuffer W H S input P0))) r c) := by
  have hload : load W H S input header0 P0 =
      .ok (header0.store (input.take 38), loadedBuffer W H S input P0) :=
    (load_spec hW hWS hH hHS input header0 P0).2.2 hin
  obtain ⟨t, d, ht, hw, hd, hcells⟩ := (write_pgm_spec (by omega : 0 ≤ S)
    { written := [], room := room } (patchedHeader (header0.store (input.take 38)))
    ((clockwise S)^[k.toNat] ((counterClockwise S)^[m.toNat]
      (loadedBuffer W H S input P0)))).2.2 hroom
  refine ⟨d, ?_, hd, hcells⟩
  simp only [main, hload, ok_bind, rotate_eq_turns, patch_header_eq, ht]
  rw [← List.nil_append (_ ++ d), ← hw]
  rfl

/-- The output file of `main` with the compiled dimensions, on a long enough
input and a destination with room enough. -/
theorem main_compiled (input : List Byte) (room : Nat) (k m : Int) (header0 : Header)
    (P0 : Matrix) (hin : 38 + 690 * 920 ≤ input.length) (hroom : 38 + 920 * 920 ≤ room) :
    ∃ out, main DIMX DIMY SQDIM input room k m header0 P0 = .ok out ∧
      out.length = 38 + 920 * 920 ∧
      (∀ n : Nat, n < 38 →
        out[n]? = some (patchedHeader (header0.store (input.take 38)) (n : Int))) ∧
      (∀ r c : Nat, r < 920 → c < 920 → out[38 + 920 * r + c]? =
        some (((clockwise 920)^[k.toNat] ((counterClockwise 920)^[m.toNat]
          (loadedBuffer 690 920 920 input P0))) (r : Int) (c : Int))) := by
  have hX : DIMX = 690 := rfl
  have hY : DIMY = 920 := rfl
  have hS : SQDIM = 920 := by decide
  obtain ⟨d, hmain, hd, hcells⟩ := main_spec (W := DIMX) (H := DIMY) (S := SQDIM) (by decide)
    (by decide) (by decide) (by decide) input room k m header0 P0
    (by rw [hX, hY]; omega) (by rw [hS]; omega)
  rw [hX, hY, hS] at hmain hcells
  rw [hS] at hd
  have hlen := Header.bytes_length (patchedHeader (header0.store (input.take 38))) 38
  refine ⟨_, hmain, ?_, ?_, ?_⟩
  · rw [List.length_append, hlen]
    omega
  · intro n hn
    rw [List.getElem?_append_left (by omega), Header.bytes_getElem? _ hn]
  · intro r c hr hc
    rw [List.getElem?_append_right (by omega), hlen]
    have e : 38 + 920 * r + c - 38 = (920 * (r : Int) + (c : Int)).toNat := by omega
    rw [e]
    exact hcells r c (by omega) (by omega) (by omega) (by omega)

theorem main_short_room {W H S : Int} (hW : 0 ≤ W) (hWS : W ≤ S) (hH : 0 ≤ H) (hHS : H ≤ S)
    (input : List Byte) (room : Nat) (k m : Int) (header0 : Header) (P0 : Matrix)
    (hin : 38 + W * H ≤ (input.length : Int)) (hroom : (room : Int) < 38 + S * S) :
    ∃ e, main W H S input room k m header0 P0 = .error e := by
  have hload : load W H S input header0 P0 =
      .ok (header0.store (input.take 38), loadedBuffer W H S input P0) :=
    (load_spec hW hWS hH hHS input header0 P0).2.2 hin
  obtain ⟨h1, h2, -⟩ := write_pgm_spec (by omega : 0 ≤ S)
    { written := [], room := room } (patchedHeader (header0.store (input.take 38)))
    ((clockwise S)^[k.toNat] ((counterClockwise S)^[m.toNat] (loadedBuffer W H S input P0)))
  by_cases h38 : room < 38
  · refine ⟨.exitFailure .writeHeader, ?_⟩
    simp only [main, hload, ok_bind, rotate_eq_turns, patch_header_eq, h1 h38]
    rfl
  · refine ⟨.exitFailure .writeData, ?_⟩
    simp only [main, hload, ok_bind, rotate_eq_turns, patch_header_eq,
      h2 (by show 38 ≤ room; omega) hroom]
    rfl

/-- A run of `main` with the compiled dimensions on a long enough input ends
normally exactly when the destination has room for `38 + 920*920` bytes. -/
theorem main_ok_iff_room (input : List Byte) (room : Nat) (k m : Int) (header0 : Header)
    (P0 : Matrix) (hin : 38 + 690 * 920 ≤ input.length) :
    (∃ out, main DIMX DIMY SQDIM input room k m header0 P0 = .ok out) ↔
      38 + 920 * 920 ≤ room := by
  constructor
  · rintro ⟨out, hout⟩
    by_contra hroom
    have hX : DIMX = 690 := rfl
    have hY : DIMY = 920 := rfl
    have hS : SQDIM = 920 := by decide
    obtain ⟨e, he⟩ := main_short_room (W := DIMX) (H := DIMY) (S := SQDIM) (by decide)
      (by decide) (by decide) (by decide) input room k m header0 P0
      (by rw [hX, hY]; omega) (by rw [hS]; omega)
    rw [he] at hout
    exact Except.noConfusion hout
  · intro hroom
    obtain ⟨out, hout, -⟩ := main_compiled input room k m header0 P0 hin hroom
    exact ⟨out, hout⟩

theorem loadedBuffer_live (input : List Byte) (P0 : Matrix) {r c : Nat}
    (hin : 38 + 690 * 920 ≤ input.length) (hr : r < 920) (hc : c < 690) :
    some (loadedBuffer 690 920 920 input P0 (r : Int) (c : Int)) =
      input[38 + 690 * r + c]? := by
  have e : (38 + 690 * (r : Int) + (c : Int)).toNat = 38 + 690 * r + c := by omega
  simp only [loadedBuffer]
  rw [if_pos (by omega), e]
  exact (getElem?_eq_some_getD _ (by omega)).symm

theorem loadedBuffer_pad (input : List Byte) (P0 : Matrix) {r c : Nat}
    (hr : r < 920) (hc : c < 920) (hout : 690 ≤ c) :
    loadedBuffer 690 920 920 input P0 (r : Int) (c : Int) = 0 := by
  simp only [loadedBuffer]
  rw [if_neg (by omega), if_pos (by omega)]

theorem stored_header (input : List Byte) (header0 : Header) {n : Nat}
    (hin : 38 ≤ input.length) (hn : n < 38) :
    some (header0.store (input.take 38) (n : Int)) = input[n]? := by
  have h38 : (input.take 38).length = 38 := by
    rw [List.length_take]
    omega
  rw [Header.store_apply _ _ (by omega), getD_take_of_lt _ hn]
  exact (getElem?_eq_some_getD _ (by omega)).symm

theorem turns_zero_zero (S : Int) (B : Matrix) :
    (clockwise S)^[(0 : Int).toNat] ((counterClockwise S)^[(0 : Int).toNat] B) = B := by
  rw [Int.toNat_zero, Function.iterate_zero, Function.iterate_zero, id_eq, id_eq]

theorem turns_one_zero (S : Int) (B : Matrix) :
    (clockwise S)^[(1 : Int).toNat] ((counterClockwise S)^[(0 : Int).toNat] B) =
      clockwise S B := by
  have e : (1 : Int).toNat = 1 := rfl
  rw [Int.toNat_zero, e, Function.iterate_zero, Function.iterate_one, id_eq]

/-- With `DIMX = 2`, `DIMY = 3`, `SQDIM = 3`, the 46-byte test file and one
clockwise turn, `main` writes the 38 header bytes with the six patched ones,
then the rows `42 40 38`, `43 41 39`, `0 0 0`; a destination with room for 46
bytes only makes the run fail. -/
theorem main_small_example :
    (main 2 3 3 smallInput 47 1 0 (fun _ => 0) (fun _ _ => 9)).toOption =
      some ((List.range 26).map Fin.ofNat ++ [57, 50, 48, 29, 57, 50, 48, 33, 34, 35, 36, 37] ++
        [42, 40, 38, 43, 41, 39, 0, 0, 0]) ∧
    (main 2 3 3 smallInput 46 1 0 (fun _ => 0) (fun _ _ => 9)).toOption = none := by
  refine ⟨by decide, by decide⟩

/-! ### Counting values -/

theorem countValue_clockwise (S : Nat) (B : Matrix) (v : Byte) :
    countValue S (clockwise S B) v = countValue S B v := by
  unfold countValue
  refine Finset.card_nbij' (fun p => (S - 1 - p.2, p.1)) (fun p => (p.2, S - 1 - p.1))
    ?_ ?_ ?_ ?_
  · rintro ⟨r, c⟩ hp
    simp only [Finset.mem_filter, Finset.mem_product, Finset.mem_range, clockwise] at hp ⊢
    obtain ⟨⟨hr, hc⟩, hv⟩ := hp
    rw [if_pos (by omega)] at hv
    refine ⟨⟨by omega, hr⟩, ?_⟩
    have e : ((S - 1 - c : Nat) : Int) = (S : Int) - 1 - (c : Int) := by omega
    rw [e]
    exact hv
  · rintro ⟨r, c⟩ hp
    simp only [Finset.mem_filter, Finset.mem_product, Finset.mem_range, clockwise] at hp ⊢
    obtain ⟨⟨hr, hc⟩, hv⟩ := hp
    refine ⟨⟨hc, by omega⟩, ?_⟩
    rw [if_pos (by omega)]
    have e : (S : Int) - 1 - ((S - 1 - r : Nat) : Int) = (r : Int) := by omega
    rw [e]
    exact hv
  · rintro ⟨r, c⟩ hp
    simp only [Finset.mem_filter, Finset.mem_product, Finset.mem_range] at hp
    simp only [Prod.mk.injEq, true_and]
    omega
  · rintro ⟨r, c⟩ hp
    simp only [Finset.mem_filter, Finset.mem_product, Finset.mem_range] at hp
    simp only [Prod.mk.injEq, and_true]
    omega

theorem countValue_counterClockwise (S : Nat) (B : Matrix) (v : Byte) :
    countValue S (counterClockwise S B) v = countValue S B v := by
  have h := countValue_clockwise S (counterClockwise S B) v
  rw [clockwise_counterClockwise] at h
  exact h.symm

theorem countValue_clockwise_iterate (S : Nat) (n : Nat) (B : Matrix) (v : Byte) :
    countValue S ((clockwise S)^[n] B) v = countValue S B v := by
  induction n generalizing B with
  | zero => rfl
  | succ n ih => rw [Function.iterate_succ_apply, ih, countValue_clockwise]

theorem countValue_counterClockwise_iterate (S : Nat) (n : Nat) (B : Matrix) (v : Byte) :
    countValue S ((counterClockwise S)^[n] B) v = countValue S B v := by
  induction n generalizing B with
  | zero => rfl
  | succ n ih => rw [Function.iterate_succ_apply, ih, countValue_counterClockwise]

/-! ### Layers in any order -/

theorem mem_layerIndices {S i : Int} : i ∈ layerIndices S ↔ 0 ≤ i ∧ i < S / 2 := by
  simp only [layerIndices, List.mem_map, List.mem_range]
  constructor
  · rintro ⟨n, hn, rfl⟩
    omega
  · rintro ⟨h0, h1⟩
    exact ⟨i.toNat, by omega, by omega⟩

theorem layerIndices_nodup (S : Int) : (layerIndices S).Nodup :=
  (List.nodup_range _).map (fun a b h => by simpa using h)

theorem layer_spec {S : Int} {src : Int → Int → Int × Int}
    (body : Int → Int → Matrix → Except Fault Matrix)
    (hsrc : ∀ i j r c, (r, c) ∈ cycleCells S i j →
      ((src r c).1, (src r c).2) ∈ cycleCells S i j)
    (hbody : ∀ i j m, LoopPair S i j → ∃ m', body i j m = .ok m' ∧ ∀ r c, m' r c =
      if (r, c) ∈ cycleCells S i j then m (src r c).1 (src r c).2 else m r c)
    {B m : Matrix} {P : Int → Int → Prop} {i : Int} (hm : PassInv S src B P m)
    (hi0 : 0 ≤ i) (hi1 : i < S / 2) (hP : ∀ j, ¬ P i j) :
    ∃ m', forRange i (S - i - 1) (body i) m = .ok m' ∧
      PassInv S src B (fun a b => P a b ∨ a = i) m' := by
  obtain ⟨t, ht, hInv⟩ := forRange_inv (body i)
    (fun j m => PassInv S src B (fun a b => P a b ∨ (a = i ∧ b < j)) m)
    (show i ≤ S - i - 1 by omega) m
    (hm.congr (fun a b hab => by
      have := hab.2.2.1
      constructor
      · exact fun h => Or.inl h
      · rintro (h | ⟨h1, h2⟩)
        · exact h
        · omega))
    (by
      intro j m1 hj0 hj1 hm1
      have hl : LoopPair S i j := ⟨hi0, hi1, hj0, hj1⟩
      obtain ⟨m2, hm2, hspec⟩ := hbody i j m1 hl
      refine ⟨m2, hm2, ?_⟩
      refine (hm1.step hl ?_ (hsrc i j) hspec).congr (fun a b _ => ?_)
      · rintro (h | ⟨-, h⟩)
        · exact hP j h
        · omega
      · constructor
        · rintro ((h | ⟨h1, h2⟩) | ⟨h1, h2⟩)
          · exact Or.inl h
          · exact Or.inr ⟨h1, by omega⟩
          · exact Or.inr ⟨h1, by omega⟩
        · rintro (h | ⟨h1, h2⟩)
          · exact Or.inl (Or.inl h)
          · by_cases hb : b = j
            · exact Or.inr ⟨h1, hb⟩
            · exact Or.inl (Or.inr ⟨h1, by omega⟩))
  refine ⟨t, ht, hInv.congr (fun a b hab => ?_)⟩
  have := hab.2.2.2
  constructor
  · rintro (h | ⟨h1, -⟩)
    · exact Or.inl h
    · exact Or.inr h1
  · rintro (h | h1)
    · exact Or.inl h
    · exact Or.inr ⟨h1, by omega⟩

theorem runLayers_spec {S : Int} (src : Int → Int → Int × Int)
    (body : Int → Int → Matrix → Except Fault Matrix)
    (hsrc : ∀ i j r c, (r, c) ∈ cycleCells S i j →
      ((src r c).1, (src r c).2) ∈ cycleCells S i j)
    (hbody : ∀ i j m, LoopPair S i j → ∃ m', body i j m = .ok m' ∧ ∀ r c, m' r c =
      if (r, c) ∈ cycleCells S i j then m (src r c).1 (src r c).2 else m r c)
    (B : Matrix) :
    ∀ (order : List Int), order.Nodup → (∀ i ∈ order, 0 ≤ i ∧ i < S / 2) →
      ∀ (P : Int → Int → Prop) (m : Matrix), PassInv S src B P m →
        (∀ i ∈ order, ∀ j, ¬ P i j) →
        ∃ m', runLayers (fun i m => forRange i (S - i - 1) (body i) m) order m = .ok m' ∧
          PassInv S src B (fun a b => P a b ∨ a ∈ order) m' := by
  intro order
  induction order with
  | nil =>
    intro _ _ P m hm _
    exact ⟨m, rfl, hm.congr (fun a b _ => by simp)⟩
  | cons i rest ih =>
    intro hnd hrange P m hm hP
    obtain ⟨hi, hnd'⟩ := List.nodup_cons.mp hnd
    obtain ⟨hi0, hi1⟩ := hrange i (List.mem_cons_self _ _)
    obtain ⟨m1, hm1, hInv1⟩ := layer_spec body hsrc hbody hm hi0 hi1
      (hP i (List.mem_cons_self _ _))
    obtain ⟨m2, hm2, hInv2⟩ := ih hnd' (fun a ha => hrange a (List.mem_cons_of_mem _ ha))
      (fun a b => P a b ∨ a = i) m1 hInv1
      (by
        rintro a ha j (h | h)
        · exact hP a (List.mem_cons_of_mem _ ha) j h
        · exact hi (h ▸ ha))
    refine ⟨m2, ?_, hInv2.congr (fun a b _ => ?_)⟩
    · show (forRange i (S - i - 1) (body i) m >>= runLayers _ rest) = _
      rw [hm1, ok_bind, hm2]
    · simp only [List.mem_cons]
      tauto

theorem passInv_all_clockwise {S : Int} {B B' : Matrix}
    (hInv : PassInv S (fun r c => (S - 1 - c, r)) B (fun _ _ => True) B') :
    B' = clockwise S B := by
  funext r c
  simp only [clockwise]
  by_cases hp : Processed S (fun _ _ => True) r c
  · obtain ⟨i, j, -, hl, hc⟩ := hp
    rw [if_pos (cycleCells_inBounds hl hc)]
    exact (hInv r c).1 ⟨i, j, trivial, hl, hc⟩
  · rw [(hInv r c).2 hp]
    split_ifs with hb
    · by_cases hne : r = c ∧ r + c = S - 1
      · congr 1 <;> omega
      · obtain ⟨i, j, hl, hc⟩ := cycleCells_cover hb hne
        exact absurd ⟨i, j, trivial, hl, hc⟩ hp
    · rfl

theorem passInv_all_counterClockwise {S : Int} {B B' : Matrix}
    (hInv : PassInv S (fun r c => (c, S - 1 - r)) B (fun _ _ => True) B') :
    B' = counterClockwise S B := by
  funext r c
  simp only [counterClockwise]
  by_cases hp : Processed S (fun _ _ => True) r c
  · obtain ⟨i, j, -, hl, hc⟩ := hp
    rw [if_pos (cycleCells_inBounds hl hc)]
    exact (hInv r c).1 ⟨i, j, trivial, hl, hc⟩
  · rw [(hInv r c).2 hp]
    split_ifs with hb
    · by_cases hne : r = c ∧ r + c = S - 1
      · congr 1 <;> omega
      · obtain ⟨i, j, hl, hc⟩ := cycleCells_cover hb hne
        exact absurd ⟨i, j, trivial, hl, hc⟩ hp
    · rfl

theorem passInv_start (S : Int) (src : Int → Int → Int × Int) (B : Matrix) :
    PassInv S src B (fun _ _ => False) B := by
  intro r c
  refine ⟨?_, fun _ => rfl⟩
  rintro ⟨a, b, h, -⟩
  exact absurd h not_false

theorem runLayers_rotate_right {S : Int} (B : Matrix) {order : List Int}
    (h : order.Perm (layerIndices S)) :
    runLayers (rotate_right_layer S) order B = .ok (clockwise S B) := by
  obtain ⟨B', hB', hInv⟩ := runLayers_spec (S := S) (fun r c => (S - 1 - c, r))
    (rotate_right_body S)
    (by intro i j r c; simp only [mem_cycleCells]; omega)
    (fun i j m h => rotate_right_body_spec h m) B order
    (h.nodup_iff.2 (layerIndices_nodup S))
    (fun i hi => mem_layerIndices.1 (h.mem_iff.1 hi))
    (fun _ _ => False) B (passInv_start S _ B) (fun _ _ _ h => h)
  have hall : PassInv S (fun r c => (S - 1 - c, r)) B (fun _ _ => True) B' :=
    hInv.congr (fun a b hab => by
      have : a ∈ order := h.mem_iff.2 (mem_layerIndices.2 ⟨hab.1, hab.2.1⟩)
      simp [this])
  rw [← passInv_all_clockwise hall]
  exact hB'

theorem runLayers_rotate_left {S : Int} (B : Matrix) {order : List Int}
    (h : order.Perm (layerIndices S)) :
    runLayers (rotate_left_layer S) order B = .ok (counterClockwise S B) := by
  obtain ⟨B', hB', hInv⟩ := runLayers_spec (S := S) (fun r c => (c, S - 1 - r))
    (rotate_left_body S)
    (by intro i j r c; simp only [mem_cycleCells]; omega)
    (fun i j m h => rotate_left_body_spec h m) B order
    (h.nodup_iff.2 (layerIndices_nodup S))
    (fun i hi => mem_layerIndices.1 (h.mem_iff.1 hi))
    (fun _ _ => False) B (passInv_start S _ B) (fun _ _ _ h => h)
  have hall : PassInv S (fun r c => (c, S - 1 - r)) B (fun _ _ => True) B' :=
    hInv.congr (fun a b hab => by
      have : a ∈ order := h.mem_iff.2 (mem_layerIndices.2 ⟨hab.1, hab.2.1⟩)
      simp [this])
  rw [← passInv_all_counterClockwise hall]
  exact hB'

/-! ## The rotation kernels -/

/-- C1: for every side length `S` (all `S ≥ 1` included; the compiled one is
`SQDIM = 920`) and every buffer `B`, one pass of `rotate_right` succeeds and
yields `B'` with `B'[r][c] = B[S-1-c][r]` for all `0 ≤ r, c < S`; on the 4×4
buffer holding `1 .. 16` row-major the result rows are `13 9 5 1`, `14 10 6 2`,
`15 11 7 3`, `16 12 8 4`. -/
theorem rotate_right_quarter_turn :
    SQDIM = 920 ∧
    (∀ (S : Int) (B : Matrix), ∃ B', rotate_right S B = .ok B' ∧
      ∀ r c, 0 ≤ r → r < S → 0 ≤ c → c < S → B' r c = B (S - 1 - c) r) ∧
    (rotate_right 4 grid4).toOption.map (Matrix.rows 4) =
      some [[13, 9, 5, 1], [14, 10, 6, 2], [15, 11, 7, 3], [16, 12, 8, 4]] := by
  refine ⟨by decide, fun S B => ⟨clockwise S B, rotate_right_eq S B, ?_⟩, by decide⟩
  intro r c h0 h1 h2 h3
  simp only [clockwise, if_pos (show 0 ≤ r ∧ r < S ∧ 0 ≤ c ∧ c < S from ⟨h0, h1, h2, h3⟩)]

/-- C2: for every side length `S` and every buffer `B`, one pass of
`rotate_left` succeeds and yields `B'` with `B'[r][c] = B[c][S-1-r]` for all
`0 ≤ r, c < S`; on the 4×4 buffer holding `1 .. 16` row-major the result rows
are `4 8 12 16`, `3 7 11 15`, `2 6 10 14`, `1 5 9 13`. -/
theorem rotate_left_quarter_turn :
    (∀ (S : Int) (B : Matrix), ∃ B', rotate_left S B = .ok B' ∧
      ∀ r c, 0 ≤ r → r < S → 0 ≤ c → c < S → B' r c = B c (S - 1 - r)) ∧
    (rotate_left 4 grid4).toOption.map (Matrix.rows 4) =
      some [[4, 8, 12, 16], [3, 7, 11, 15], [2, 6, 10, 14], [1, 5, 9, 13]] := by
  refine ⟨fun S B => ⟨counterClockwise S B, rotate_left_eq S B, ?_⟩, by decide⟩
  intro r c h0 h1 h2 h3
  simp only [counterClockwise,
    if_pos (show 0 ≤ r ∧ r < S ∧ 0 ≤ c ∧ c < S from ⟨h0, h1, h2, h3⟩)]

/-- C3: four passes of `rotate_right` in a row all succeed and give back the
buffer they started from, cell for cell, and so do four passes of
`rotate_left`, for every side length and every buffer. -/
theorem rotate_four_times_identity (S : Int) (B : Matrix) :
    (rotate_right S B >>= rotate_right S >>= rotate_right S >>= rotate_right S) = .ok B ∧
    (rotate_left S B >>= rotate_left S >>= rotate_left S >>= rotate_left S) = .ok B := by
  simp only [rotate_right_eq, rotate_left_eq, ok_bind, clockwise_four, counterClockwise_four,
    and_self]

/-- C4: `rotate_right` and `rotate_left` are mutual inverses: a pass of one
followed by a pass of the other succeeds and gives back the original buffer. -/
theorem rotate_right_left_inverse (S : Int) (B : Matrix) :
    (rotate_right S B >>= rotate_left S) = .ok B ∧
    (rotate_left S B >>= rotate_right S) = .ok B := by
  simp only [rotate_right_eq, rotate_left_eq, ok_bind, clockwise_counterClockwise,
    counterClockwise_clockwise, and_self]

/-- C5: for non-negative counts `k = rotations_right` and `m = rotations_left`,
`rotate` is `m` passes of `rotate_left` followed by `k` passes of
`rotate_right`; it succeeds, and its result is that of `(k - m) mod 4` passes of
`rotate_right` on `B`, so it depends on `(k - m) mod 4` only; reducing both
counts modulo 4 first gives the same result, and `k = m = 0` leaves `B` as it
is. -/
theorem rotate_net_quarter_turns (S : Int) (k m : Nat) (B : Matrix) :
    rotate S k m B = (passes (rotate_left S) m B >>= passes (rotate_right S) k) ∧
    (∃ B', rotate S k m B = .ok B' ∧
      passes (rotate_right S) (((k : Int) - (m : Int)) % 4).toNat B = .ok B') ∧
    (∀ k' m' : Nat, ((k : Int) - (m : Int)) % 4 = ((k' : Int) - (m' : Int)) % 4 →
      rotate S k' m' B = rotate S k m B) ∧
    rotate S ((k % 4 : Nat) : Int) ((m % 4 : Nat) : Int) B = rotate S k m B ∧
    rotate S 0 0 B = .ok B := by
  refine ⟨?_, ⟨_, rotate_eq_iterate S k m B, passes_rotate_right S _ B⟩, ?_, ?_, ?_⟩
  · rw [rotate_eq_passes, Int.toNat_ofNat, Int.toNat_ofNat]
  · intro k' m' h
    rw [rotate_eq_iterate, rotate_eq_iterate, h]
  · rw [rotate_eq_iterate, rotate_eq_iterate]
    have e : ((((k % 4 : Nat) : Int) - ((m % 4 : Nat) : Int)) % 4).toNat =
        (((k : Int) - (m : Int)) % 4).toNat := by omega
    rw [e]
  · exact rotate_eq_iterate S 0 0 B

/-- C6: for every side length and every buffer, `rotate` with
`rotations_right = 3`, `rotations_left = 0` succeeds with the same buffer as
`rotate` with `rotations_right = 0`, `rotations_left = 1`; on the 4×4 buffer of
the distinct values `1 .. 16` both give the rows `4 8 12 16`, `3 7 11 15`,
`2 6 10 14`, `1 5 9 13`. -/
theorem rotate_three_right_eq_one_left :
    (∀ (S : Int) (B : Matrix), ∃ B', rotate S 3 0 B = .ok B' ∧ rotate S 0 1 B = .ok B') ∧
    (rotate 4 3 0 grid4).toOption.map (Matrix.rows 4) =
      some [[4, 8, 12, 16], [3, 7, 11, 15], [2, 6, 10, 14], [1, 5, 9, 13]] ∧
    (rotate 4 0 1 grid4).toOption.map (Matrix.rows 4) =
      some [[4, 8, 12, 16], [3, 7, 11, 15], [2, 6, 10, 14], [1, 5, 9, 13]] := by
  refine ⟨fun S B => ⟨_, rotate_eq_iterate S 3 0 B, ?_⟩, by decide, by decide⟩
  exact rotate_eq_iterate S 0 1 B

/-- C7: for odd `S` and non-negative counts `k`, `m`, `rotate` succeeds and the
centre cell `[c][c]`, `c = (S-1)/2`, holds the same value after as before; no
loop pair `(i, j)` of a kernel has `[c][c]` among the four cells its body reads
and writes, and the body of either kernel at `(i, j)` leaves `[c][c]` as it
is. -/
theorem rotate_center_fixed (S : Int) (hS : S % 2 = 1) (k m : Nat) (B : Matrix) :
    (∃ B', rotate S k m B = .ok B' ∧
      B' ((S - 1) / 2) ((S - 1) / 2) = B ((S - 1) / 2) ((S - 1) / 2)) ∧
    ∀ i j, 0 ≤ i → i < S / 2 → i ≤ j → j < S - i - 1 →
      ((S - 1) / 2, (S - 1) / 2) ∉ cycleCells S i j ∧
      (∀ mat, ∃ mat', rotate_right_body S i j mat = .ok mat' ∧
        mat' ((S - 1) / 2) ((S - 1) / 2) = mat ((S - 1) / 2) ((S - 1) / 2)) ∧
      (∀ mat, ∃ mat', rotate_left_body S i j mat = .ok mat' ∧
        mat' ((S - 1) / 2) ((S - 1) / 2) = mat ((S - 1) / 2) ((S - 1) / 2)) := by
  refine ⟨⟨_, rotate_eq_iterate S k m B, clockwise_iterate_center S hS _ B⟩, ?_⟩
  intro i j h0 h1 h2 h3
  have hout : ((S - 1) / 2, (S - 1) / 2) ∉ cycleCells S i j := by
    rw [mem_cycleCells]
    omega
  refine ⟨hout, fun mat => ?_, fun mat => ?_⟩
  · obtain ⟨mat', h, hcells⟩ := rotate_right_body_spec ⟨h0, h1, h2, h3⟩ mat
    exact ⟨mat', h, by rw [hcells, if_neg hout]⟩
  · obtain ⟨mat', h, hcells⟩ := rotate_left_body_spec ⟨h0, h1, h2, h3⟩ mat
    exact ⟨mat', h, by rw [hcells, if_neg hout]⟩

/-- Instance of C7 at `S = 5`, one clockwise and two counter-clockwise turns of
the buffer `grid4`: the centre cell is `[2][2]`. -/
theorem rotate_center_fixed_witness :
    (5 : Int) % 2 = 1 ∧
    ∃ B', rotate 5 (1 : Nat) (2 : Nat) grid4 = .ok B' ∧ B' 2 2 = grid4 2 2 :=
  ⟨by decide, (rotate_center_fixed 5 (by decide) 1 2 grid4).1⟩

/-- C8: when the only non-zero cells of `B` lie in rows `[0,h)` and columns
`[0,w)`, a pass of `rotate_right` succeeds, carries each cell `[r][c]` of that
rectangle to `[c][S-1-r]`, and leaves zero every cell outside rows `[0,w)`,
columns `[S-h,S)`; a pass of `rotate_left` succeeds, carries `[r][c]` to
`[S-1-c][r]`, and leaves zero every cell outside rows `[S-w,S)`, columns
`[0,h)`. A non-zero cell of either result is the image of a non-zero cell of
`B`. -/
theorem rotate_padding_preserved (S h w : Int) (B : Matrix)
    (hB : ∀ r c, 0 ≤ r → r < S → 0 ≤ c → c < S → B r c ≠ 0 → r < h ∧ c < w) :
    (∃ B', rotate_right S B = .ok B' ∧
      (∀ r c, 0 ≤ r → r < S → 0 ≤ c → c < S → r < h → c < w → B' c (S - 1 - r) = B r c) ∧
      (∀ r c, 0 ≤ r → r < S → 0 ≤ c → c < S → ¬ (r < w ∧ S - h ≤ c) → B' r c = 0) ∧
      (∀ r c, 0 ≤ r → r < S → 0 ≤ c → c < S → B' r c ≠ 0 →
        ∃ r0 c0, 0 ≤ r0 ∧ r0 < S ∧ 0 ≤ c0 ∧ c0 < S ∧ B r0 c0 ≠ 0 ∧
          r = c0 ∧ c = S - 1 - r0 ∧ B' r c = B r0 c0)) ∧
    (∃ B', rotate_left S B = .ok B' ∧
      (∀ r c, 0 ≤ r → r < S → 0 ≤ c → c < S → r < h → c < w → B' (S - 1 - c) r = B r c) ∧
      (∀ r c, 0 ≤ r → r < S → 0 ≤ c → c < S → ¬ (S - w ≤ r ∧ c < h) → B' r c = 0) ∧
      (∀ r c, 0 ≤ r → r < S → 0 ≤ c → c < S → B' r c ≠ 0 →
        ∃ r0 c0, 0 ≤ r0 ∧ r0 < S ∧ 0 ≤ c0 ∧ c0 < S ∧ B r0 c0 ≠ 0 ∧
          r = S - 1 - c0 ∧ c = r0 ∧ B' r c = B r0 c0)) := by
  refine ⟨⟨_, rotate_right_eq S B, ?_, ?_, ?_⟩, ⟨_, rotate_left_eq S B, ?_, ?_, ?_⟩⟩
  · intro r c h0 h1 h2 h3 _ _
    simp only [clockwise]
    rw [if_pos (by omega)]
    congr 1
    omega
  · intro r c h0 h1 h2 h3 hout
    simp only [clockwise]
    rw [if_pos ⟨h0, h1, h2, h3⟩]
    by_contra hne
    have := hB (S - 1 - c) r (by omega) (by omega) h0 h1 hne
    omega
  · intro r c h0 h1 h2 h3 hne
    simp only [clockwise] at hne ⊢
    rw [if_pos ⟨h0, h1, h2, h3⟩] at hne ⊢
    exact ⟨S - 1 - c, r, by omega, by omega, h0, h1, hne, rfl, by omega, rfl⟩
  · intro r c h0 h1 h2 h3 _ _
    simp only [counterClockwise]
    rw [if_pos (by omega)]
    congr 1
    omega
  · intro r c h0 h1 h2 h3 hout
    simp only [counterClockwise]
    rw [if_pos ⟨h0, h1, h2, h3⟩]
    by_contra hne
    have := hB c (S - 1 - r) h2 h3 (by omega) (by omega) hne
    omega
  · intro r c h0 h1 h2 h3 hne
    simp only [counterClockwise] at hne ⊢
    rw [if_pos ⟨h0, h1, h2, h3⟩] at hne ⊢
    exact ⟨c, S - 1 - r, h2, h3, by omega, by omega, hne, by omega, rfl, rfl⟩

/-- Instance of C8 on the 4×4 buffer `card4`, whose non-zero cells are the 3
rows by 2 columns at the top left. -/
theorem rotate_padding_preserved_witness :
    (∀ r c : Int, 0 ≤ r → r < 4 → 0 ≤ c → c < 4 → card4 r c ≠ 0 → r < 3 ∧ c < 2) ∧
    (∃ B', rotate_right 4 card4 = .ok B' ∧ B' 1 (4 - 1 - 2) = card4 2 1 ∧ B' 2 1 = 0) ∧
    (∃ B', rotate_left 4 card4 = .ok B' ∧ B' (4 - 1 - 1) 2 = card4 2 1 ∧ B' 1 3 = 0) := by
  have hyp : ∀ r c : Int, 0 ≤ r → r < 4 → 0 ≤ c → c < 4 → card4 r c ≠ 0 → r < 3 ∧ c < 2 := by
    intro r c _ _ _ _ hne
    simp only [card4] at hne
    split_ifs at hne with hb
    · omega
    · exact absurd rfl hne
  obtain ⟨⟨B1, e1, live1, zero1, -⟩, ⟨B2, e2, live2, zero2, -⟩⟩ :=
    rotate_padding_preserved 4 3 2 card4 hyp
  exact ⟨hyp,
    ⟨B1, e1, live1 2 1 (by decide) (by decide) (by decide) (by decide) (by decide) (by decide),
      zero1 2 1 (by decide) (by decide) (by decide) (by decide) (by decide)⟩,
    ⟨B2, e2, live2 2 1 (by decide) (by decide) (by decide) (by decide) (by decide) (by decide),
      zero2 1 3 (by decide) (by decide) (by decide) (by decide) (by decide)⟩⟩

/-! ## Loading the raster file -/

/-- C9: on an input of at least `38 + 690*920` bytes, `zero_matrix` followed by
`read_pgm_header` and `read_pgm_data` succeeds with a header whose bytes
`0 .. 37` are the input bytes `0 .. 37` and a buffer with
`buffer[r][c] = input[38 + 690*r + c]` for `r < 920`, `c < 690`, and
`buffer[r][c] = 0` for `r < 920`, `690 ≤ c < 920`. -/
theorem load_layout (input : List Byte) (header0 : Header) (P0 : Matrix)
    (hlen : 38 + 690 * 920 ≤ input.length) :
    ∃ hdr B, load DIMX DIMY SQDIM input header0 P0 = .ok (hdr, B) ∧
      (∀ k : Nat, k < 38 → input[k]? = some (hdr (k : Int))) ∧
      (∀ r c : Nat, r < 920 → c < 690 →
        input[38 + 690 * r + c]? = some (B (r : Int) (c : Int))) ∧
      (∀ r c : Nat, r < 920 → 690 ≤ c → c < 920 → B (r : Int) (c : Int) = 0) := by
  refine ⟨_, _, (load_compiled input header0 P0).2.2 hlen, ?_, ?_, ?_⟩
  · intro k hk
    have h38 : (input.take 38).length = 38 := by
      rw [List.length_take]
      omega
    rw [Header.store_apply _ _ (by omega), getD_take_of_lt _ hk]
    exact getElem?_eq_some_getD _ (by omega)
  · intro r c hr hc
    have e : (38 + 690 * (r : Int) + (c : Int)).toNat = 38 + 690 * r + c := by omega
    rw [if_pos (by omega), e]
    exact getElem?_eq_some_getD _ (by omega)
  · intro r c hr hc1 hc2
    rw [if_neg (by omega), if_pos (by omega)]

/-- Instance of C9 on the file of `38 + 690*920` zero bytes. -/
theorem load_layout_witness :
    38 + 690 * 920 ≤ (List.replicate (38 + 690 * 920) (0 : Byte)).length ∧
    ∃ hdr B, load DIMX DIMY SQDIM (List.replicate (38 + 690 * 920) (0 : Byte))
        (fun _ => 0) (fun _ _ => 0) = .ok (hdr, B) ∧
      (∀ k : Nat, k < 38 →
        (List.replicate (38 + 690 * 920) (0 : Byte))[k]? = some (hdr (k : Int))) ∧
      (∀ r c : Nat, r < 920 → c < 690 →
        (List.replicate (38 + 690 * 920) (0 : Byte))[38 + 690 * r + c]? =
          some (B (r : Int) (c : Int))) ∧
      (∀ r c : Nat, r < 920 → 690 ≤ c → c < 920 → B (r : Int) (c : Int) = 0) :=
  ⟨by rw [List.length_replicate], load_layout _ _ _ (by rw [List.length_replicate])⟩

/-- C10: with the input a finite byte sequence, `read_pgm_header` followed by
`read_pgm_data` stops in an error exactly when the input has fewer than
`38 + 690*920` bytes: with fewer than 38 bytes at the header read, otherwise
at a data read; with at least that many bytes it succeeds, and the bytes after
the first `38 + 690*920` have no effect on the result. -/
theorem load_fails_iff_short_input (input : List Byte) (header0 : Header) (P0 : Matrix) :
    (input.length < 38 →
      load DIMX DIMY SQDIM input header0 P0 = .error (.exitFailure .readHeader)) ∧
    (38 ≤ input.length → input.length < 38 + 690 * 920 →
      load DIMX DIMY SQDIM input header0 P0 = .error (.exitFailure .readData)) ∧
    ((∃ e, load DIMX DIMY SQDIM input header0 P0 = .error e) ↔
      input.length < 38 + 690 * 920) ∧
    (38 + 690 * 920 ≤ input.length →
      ∃ hdr B, load DIMX DIMY SQDIM input header0 P0 = .ok (hdr, B) ∧
        load DIMX DIMY SQDIM (input.take (38 + 690 * 920)) header0 P0 = .ok (hdr, B)) := by
  obtain ⟨h1, h2, h3⟩ := load_compiled input header0 P0
  refine ⟨h1, h2, ⟨?_, ?_⟩, ?_⟩
  · rintro ⟨e, he⟩
    by_contra hlen
    rw [h3 (by omega)] at he
    exact Except.noConfusion he
  · intro hlen
    by_cases h38 : input.length < 38
    · exact ⟨_, h1 h38⟩
    · exact ⟨_, h2 (by omega) hlen⟩
  · intro hlen
    refine ⟨_, _, h3 hlen, ?_⟩
    have hl : (input.take (38 + 690 * 920)).length = 38 + 690 * 920 := by
      rw [List.length_take]
      omega
    rw [(load_compiled (input.take (38 + 690 * 920)) header0 P0).2.2 (by omega),
      List.take_take]
    congr 2
    funext r c
    by_cases hin : 0 ≤ r ∧ r < 920 ∧ 0 ≤ c ∧ c < 690
    · rw [if_pos hin, if_pos hin, getD_take_of_lt _ (by omega)]
    · rw [if_neg hin, if_neg hin]

/-! ## Storing the raster file and the whole run -/

/-- C11: for every header and every 920×920 buffer, `write_pgm` ends normally
(every `write` takes all its bytes) when the destination has room for
`38 + 920*920` bytes, and whenever it ends normally it has appended exactly
`38 + 920*920` bytes to the file: first the 38 header bytes in order, then the
buffer row-major, `buffer[r][c]` at offset `38 + 920*r + c`. -/
theorem write_pgm_layout (out : OutFd) (header : Header) (mat : Matrix) :
    (38 + 920 * 920 ≤ out.room → ∃ t, write_pgm SQDIM out header mat = .ok t) ∧
    ∀ t, write_pgm SQDIM out header mat = .ok t →
      ∃ data, t.written = out.written ++ data ∧ data.length = 38 + 920 * 920 ∧
        (∀ n : Nat, n < 38 → data[n]? = some (header (n : Int))) ∧
        ∀ r c : Nat, r < 920 → c < 920 →
          data[38 + 920 * r + c]? = some (mat (r : Int) (c : Int)) := by
  have hS : SQDIM = 920 := by decide
  obtain ⟨h1, h2, h3⟩ := write_pgm_spec (S := SQDIM) (by decide) out header mat
  rw [hS] at h1 h2 h3
  have hlen := Header.bytes_length header 38
  refine ⟨fun hroom => ?_, fun t ht => ?_⟩
  · obtain ⟨t, d, ht, -⟩ := h3 (by omega)
    exact ⟨t, hS ▸ ht⟩
  · rw [hS] at ht
    by_cases hroom : 38 + 920 * 920 ≤ out.room
    · obtain ⟨t', d, ht', hw, hd, hcells⟩ := h3 (by omega)
      rw [ht'] at ht
      obtain rfl : t' = t := Except.ok.inj ht
      refine ⟨header.bytes 38 ++ d, hw, ?_, ?_, ?_⟩
      · rw [List.length_append, hlen]
        omega
      · intro n hn
        rw [List.getElem?_append_left (by omega), Header.bytes_getElem? _ hn]
      · intro r c hr hc
        rw [List.getElem?_append_right (by omega), hlen]
        have e : 38 + 920 * r + c - 38 = (920 * (r : Int) + (c : Int)).toNat := by omega
        rw [e]
        exact hcells r c (by omega) (by omega) (by omega) (by omega)
    · exfalso
      by_cases h38 : out.room < 38
      · rw [h1 h38] at ht
        exact Except.noConfusion ht
      · rw [h2 (by omega) (by omega)] at ht
        exact Except.noConfusion ht

/-- C12: the patch in `main` sets `header[26..28]` and `header[30..32]` to the
digits `'9'`, `'2'`, `'0'` (bytes 57, 50, 48) and changes no other byte of the
header; in the output of a run that ends normally the bytes at offsets 26, 27,
28 and 30, 31, 32 are those digits, and each other of the first 38 bytes is
the input byte at the same offset. -/
theorem header_patch_frame (input : List Byte) (room : Nat) (k m : Int) (header0 : Header)
    (P0 : Matrix) (hin : 38 + 690 * 920 ≤ input.length) :
    (∀ header : Header, ∃ h', patch_header header = .ok h' ∧
      h' 26 = ascii '9' ∧ h' 27 = ascii '2' ∧ h' 28 = ascii '0' ∧
      h' 30 = ascii '9' ∧ h' 31 = ascii '2' ∧ h' 32 = ascii '0' ∧
      ∀ n : Int, n ≠ 26 → n ≠ 27 → n ≠ 28 → n ≠ 30 → n ≠ 31 → n ≠ 32 → h' n = header n) ∧
    (ascii '9' = 57 ∧ ascii '2' = 50 ∧ ascii '0' = 48) ∧
    (38 + 920 * 920 ≤ room →
      ∃ out, main DIMX DIMY SQDIM input room k m header0 P0 = .ok out) ∧
    ∀ out, main DIMX DIMY SQDIM input room k m header0 P0 = .ok out →
      out[26]? = some (ascii '9') ∧ out[27]? = some (ascii '2') ∧
      out[28]? = some (ascii '0') ∧ out[30]? = some (ascii '9') ∧
      out[31]? = some (ascii '2') ∧ out[32]? = some (ascii '0') ∧
      ∀ n : Nat, n < 38 → n ≠ 26 → n ≠ 27 → n ≠ 28 → n ≠ 30 → n ≠ 31 → n ≠ 32 →
        out[n]? = input[n]? := by
  refine ⟨fun header => ⟨_, patch_header_eq header, rfl, rfl, rfl, rfl, rfl, rfl, ?_⟩,
    ⟨by decide, by decide, by decide⟩,
    fun hroom => (main_ok_iff_room input room k m header0 P0 hin).2 hroom, fun out hout => ?_⟩
  · intro n h1 h2 h3 h4 h5 h6
    simp only [patchedHeader]
    rw [if_neg (by omega), if_neg (by omega), if_neg (by omega)]
  · have hroom := (main_ok_iff_room input room k m header0 P0 hin).1 ⟨out, hout⟩
    obtain ⟨out', hout', -, hhdr, -⟩ := main_compiled input room k m header0 P0 hin hroom
    rw [hout'] at hout
    obtain rfl : out' = out := Except.ok.inj hout
    refine ⟨hhdr 26 (by decide), hhdr 27 (by decide), hhdr 28 (by decide),
      hhdr 30 (by decide), hhdr 31 (by decide), hhdr 32 (by decide), ?_⟩
    intro n hn h1 h2 h3 h4 h5 h6
    rw [hhdr n hn, ← stored_header input header0 (by omega) hn]
    simp only [patchedHeader]
    rw [if_neg (by omega), if_neg (by omega), if_neg (by omega)]

/-- Instance of C12 on the file of `38 + 690*920` zero bytes, written to a
destination with room for exactly `38 + 920*920` bytes, with no rotation. -/
theorem header_patch_frame_witness :
    38 + 690 * 920 ≤ (uniformInput 0).length ∧
    ∃ out, main DIMX DIMY SQDIM (uniformInput 0) (38 + 920 * 920) 0 0 (fun _ => 0)
        (fun _ _ => 0) = .ok out ∧
      out[26]? = some 57 ∧ out[27]? = some 50 ∧ out[28]? = some 48 ∧
      out[29]? = (uniformInput 0)[29]? := by
  have hin : 38 + 690 * 920 ≤ (uniformInput 0).length := by
    rw [uniformInput, List.length_replicate]
  obtain ⟨-, -, hex, hall⟩ := header_patch_frame (uniformInput 0) (38 + 920 * 920) 0 0
    (fun _ => 0) (fun _ _ => 0) hin
  obtain ⟨out, hout⟩ := hex (le_refl _)
  obtain ⟨h26, h27, h28, -, -, -, hrest⟩ := hall out hout
  exact ⟨hin, out, hout, h26, h27, h28,
    hrest 29 (by decide) (by decide) (by decide) (by decide) (by decide) (by decide)
      (by decide)⟩

/-- C13, as the code has it: on an input of at least `38 + 690*920` bytes a
run of `main` with no rotation ends normally when the destination has room
for `38 + 920*920` bytes, and then the output has exactly `38 + 920*920`
bytes; each of its first 38 bytes other than those at offsets 26, 27, 28, 30,
31, 32 is the input byte at the same offset; row `r` of the output data is the
690 samples of row `r` of the input followed by 230 zero bytes. -/
theorem main_zero_rotations_layout (input : List Byte) (room : Nat) (header0 : Header)
    (P0 : Matrix) (hin : 38 + 690 * 920 ≤ input.length) :
    (38 + 920 * 920 ≤ room →
      ∃ out, main DIMX DIMY SQDIM input room 0 0 header0 P0 = .ok out) ∧
    ∀ out, main DIMX DIMY SQDIM input room 0 0 header0 P0 = .ok out →
      out.length = 38 + 920 * 920 ∧
      (∀ n : Nat, n < 38 → n ≠ 26 → n ≠ 27 → n ≠ 28 → n ≠ 30 → n ≠ 31 → n ≠ 32 →
        out[n]? = input[n]?) ∧
      (∀ r c : Nat, r < 920 → c < 690 →
        out[38 + 920 * r + c]? = input[38 + 690 * r + c]?) ∧
      (∀ r c : Nat, r < 920 → 690 ≤ c → c < 920 → out[38 + 920 * r + c]? = some 0) := by
  refine ⟨fun hroom => (main_ok_iff_room input room 0 0 header0 P0 hin).2 hroom,
    fun out hout => ?_⟩
  have hroom := (main_ok_iff_room input room 0 0 header0 P0 hin).1 ⟨out, hout⟩
  obtain ⟨out', hout', hlen, hhdr, hdata⟩ := main_compiled input room 0 0 header0 P0 hin hroom
  rw [hout'] at hout
  obtain rfl : out' = out := Except.ok.inj hout
  rw [turns_zero_zero] at hdata
  refine ⟨hlen, ?_, ?_, ?_⟩
  · intro n hn h1 h2 h3 h4 h5 h6
    rw [hhdr n hn, ← stored_header input header0 (by omega) hn]
    simp only [patchedHeader]
    rw [if_neg (by omega), if_neg (by omega), if_neg (by omega)]
  · intro r c hr hc
    rw [hdata r c hr (by omega)]
    exact loadedBuffer_live input P0 hin hr hc
  · intro r c hr hc1 hc2
    rw [hdata r c hr hc2]
    exact congrArg some (loadedBuffer_pad input P0 hr hc2 hc1)

/-- Instance of the amended C13 on the well-formed file whose every byte is 1. -/
theorem main_zero_rotations_layout_witness :
    38 + 690 * 920 ≤ (uniformInput 1).length ∧
    ∃ out, main DIMX DIMY SQDIM (uniformInput 1) (38 + 920 * 920) 0 0 (fun _ => 0)
        (fun _ _ => 0) = .ok out ∧
      out.length = 38 + 920 * 920 ∧ out[38 + 920 * 1 + 0]? = (uniformInput 1)[38 + 690 * 1 + 0]? ∧
      out[38 + 920 * 0 + 690]? = some 0 := by
  have hin : 38 + 690 * 920 ≤ (uniformInput 1).length := by
    rw [uniformInput, List.length_replicate]
  obtain ⟨hex, hall⟩ := main_zero_rotations_layout (uniformInput 1) (38 + 920 * 920)
    (fun _ => 0) (fun _ _ => 0) hin
  obtain ⟨out, hout⟩ := hex (le_refl _)
  obtain ⟨hlen, -, hlive, hpad⟩ := hall out hout
  exact ⟨hin, out, hout, hlen, hlive 1 0 (by decide) (by decide),
    hpad 0 690 (by decide) (by decide) (by decide)⟩

/-- C13 as stated fails: the well-formed file of `38 + 690*920` bytes that are
all 1, stored with no rotation, gives an output of another length, and at
offset `38 + 690 = 728`, which is no header offset, the output holds 0 where
the input holds 1. -/
theorem round_trip_not_identical :
    (uniformInput 1).length = 38 + 690 * 920 ∧
    ∃ out, main DIMX DIMY SQDIM (uniformInput 1) (38 + 920 * 920) 0 0 (fun _ => 0)
        (fun _ _ => 0) = .ok out ∧
      out.length ≠ (uniformInput 1).length ∧
      out[728]? = some 0 ∧ (uniformInput 1)[728]? = some 1 := by
  have hlen1 : (uniformInput 1).length = 38 + 690 * 920 := by
    rw [uniformInput, List.length_replicate]
  obtain ⟨out, hout, hlen, -, hdata⟩ := main_compiled (uniformInput 1) (38 + 920 * 920) 0 0
    (fun _ => 0) (fun _ _ => 0) (by omega) (le_refl _)
  rw [turns_zero_zero] at hdata
  refine ⟨hlen1, out, hout, by omega, ?_, ?_⟩
  · have h := hdata 0 690 (by decide) (by decide)
    rw [show (38 + 920 * 0 + 690 : Nat) = 728 from rfl] at h
    rw [h]
    exact congrArg some (loadedBuffer_pad _ _ (by decide) (by decide) (by decide))
  · rw [uniformInput]
    exact List.getElem?_replicate_of_lt (by decide)

/-- C14: on an input of at least `38 + 690*920` bytes a run of `main` with one
clockwise and no counter-clockwise rotation ends normally when the
destination has room for `38 + 920*920` bytes, and then the output has exactly
`38 + 920*920` bytes, with the data byte at offset `38 + 920*r + c` equal to
the input byte at offset `38 + 690*(919-c) + r` for `r < 690` and equal to 0
for `690 ≤ r < 920`, for every `c < 920`. -/
theorem main_one_clockwise_turn (input : List Byte) (room : Nat) (header0 : Header)
    (P0 : Matrix) (hin : 38 + 690 * 920 ≤ input.length) :
    (38 + 920 * 920 ≤ room →
      ∃ out, main DIMX DIMY SQDIM input room 1 0 header0 P0 = .ok out) ∧
    ∀ out, main DIMX DIMY SQDIM input room 1 0 header0 P0 = .ok out →
      out.length = 38 + 920 * 920 ∧
      (∀ r c : Nat, r < 690 → c < 920 →
        out[38 + 920 * r + c]? = input[38 + 690 * (919 - c) + r]?) ∧
      (∀ r c : Nat, 690 ≤ r → r < 920 → c < 920 → out[38 + 920 * r + c]? = some 0) := by
  refine ⟨fun hroom => (main_ok_iff_room input room 1 0 header0 P0 hin).2 hroom,
    fun out hout => ?_⟩
  have hroom := (main_ok_iff_room input room 1 0 header0 P0 hin).1 ⟨out, hout⟩
  obtain ⟨out', hout', hlen, -, hdata⟩ := main_compiled input room 1 0 header0 P0 hin hroom
  rw [hout'] at hout
  obtain rfl : out' = out := Except.ok.inj hout
  rw [turns_one_zero] at hdata
  have hturn : ∀ r c : Nat, r < 920 → c < 920 →
      clockwise 920 (loadedBuffer 690 920 920 input P0) (r : Int) (c : Int) =
      loadedBuffer 690 920 920 input P0 ((919 - c : Nat) : Int) (r : Int) := by
    intro r c hr hc
    have e : (920 : Int) - 1 - (c : Int) = ((919 - c : Nat) : Int) := by omega
    simp only [clockwise]
    rw [if_pos (by omega), e]
  refine ⟨hlen, ?_, ?_⟩
  · intro r c hr hc
    rw [hdata r c (by omega) hc, hturn r c (by omega) hc]
    exact loadedBuffer_live input P0 hin (by omega) hr
  · intro r c hr1 hr2 hc
    rw [hdata r c hr2 hc, hturn r c hr2 hc]
    exact congrArg some (loadedBuffer_pad input P0 (by omega) hr2 hr1)

/-- Instance of C14 on the well-formed file whose every byte is 1. -/
theorem main_one_clockwise_turn_witness :
    38 + 690 * 920 ≤ (uniformInput 1).length ∧
    ∃ out, main DIMX DIMY SQDIM (uniformInput 1) (38 + 920 * 920) 1 0 (fun _ => 0)
        (fun _ _ => 0) = .ok out ∧
      out.length = 38 + 920 * 920 ∧
      out[38 + 920 * 0 + 0]? = (uniformInput 1)[38 + 690 * (919 - 0) + 0]? ∧
      out[38 + 920 * 690 + 0]? = some 0 := by
  have hin : 38 + 690 * 920 ≤ (uniformInput 1).length := by
    rw [uniformInput, List.length_replicate]
  obtain ⟨hex, hall⟩ := main_one_clockwise_turn (uniformInput 1) (38 + 920 * 920)
    (fun _ => 0) (fun _ _ => 0) hin
  obtain ⟨out, hout⟩ := hex (le_refl _)
  obtain ⟨hlen, hlive, hpad⟩ := hall out hout
  exact ⟨hin, out, hout, hlen, hlive 0 0 (by decide) (by decide),
    hpad 690 0 (by decide) (by decide) (by decide)⟩

/-! ## Safety and structure of the rotation engine -/

/-- C15: for every side length and every buffer, running the layers
`0 .. S/2 - 1` of `rotate_right`, or of `rotate_left`, in the order of any
permutation `order` of them, each layer by its inner loop as written, ends
with the same buffer as the pass in ascending order, which is the pass the
function makes. -/
theorem layer_order_irrelevant (S : Int) (B : Matrix) (order : List Int)
    (h : order.Perm (layerIndices S)) :
    rotate_right S B = runLayers (rotate_right_layer S) (layerIndices S) B ∧
    rotate_left S B = runLayers (rotate_left_layer S) (layerIndices S) B ∧
    runLayers (rotate_right_layer S) order B = rotate_right S B ∧
    runLayers (rotate_left_layer S) order B = rotate_left S B ∧
    (∃ B', runLayers (rotate_right_layer S) order B = .ok B') ∧
    ∃ B', runLayers (rotate_left_layer S) order B = .ok B' := by
  refine ⟨?_, ?_, ?_, ?_, ⟨_, runLayers_rotate_right B h⟩, ⟨_, runLayers_rotate_left B h⟩⟩
  · rw [rotate_right_eq, runLayers_rotate_right B (List.Perm.refl _)]
  · rw [rotate_left_eq, runLayers_rotate_left B (List.Perm.refl _)]
  · rw [rotate_right_eq, runLayers_rotate_right B h]
  · rw [rotate_left_eq, runLayers_rotate_left B h]

/-- Instance of C15 at `S = 6`, whose layers `0, 1, 2` are run in the order
`2, 0, 1`, on the buffer `grid4`. -/
theorem layer_order_irrelevant_witness :
    [2, 0, 1].Perm (layerIndices 6) ∧
    runLayers (rotate_right_layer 6) [2, 0, 1] grid4 = rotate_right 6 grid4 ∧
    runLayers (rotate_left_layer 6) [2, 0, 1] grid4 = rotate_left 6 grid4 :=
  have hp : [2, 0, 1].Perm (layerIndices 6) := by decide
  have h := layer_order_irrelevant 6 grid4 [2, 0, 1] hp
  ⟨hp, h.2.2.1, h.2.2.2.1⟩

/-- C16: for every loop pair `(i, j)` of a pass, `0 ≤ i < S/2` and
`i ≤ j < S-i-1`, the index expressions `i`, `j`, `S-1-i`, `S-1-j` lie in
`[0, S)` and the body of either kernel ends without an out-of-bounds access;
so do a whole pass of `rotate_right`, a whole pass of `rotate_left` and
`rotate`, for every side length, every buffer and all counts. -/
theorem rotation_never_fails (S : Int) (B : Matrix) (k m : Int) :
    (∀ i j, 0 ≤ i → i < S / 2 → i ≤ j → j < S - i - 1 →
      (0 ≤ i ∧ i < S) ∧ (0 ≤ j ∧ j < S) ∧ (0 ≤ S - 1 - i ∧ S - 1 - i < S) ∧
      (0 ≤ S - 1 - j ∧ S - 1 - j < S) ∧
      (∀ mat, ∃ mat', rotate_right_body S i j mat = .ok mat') ∧
      (∀ mat, ∃ mat', rotate_left_body S i j mat = .ok mat')) ∧
    (∃ B', rotate_right S B = .ok B') ∧
    (∃ B', rotate_left S B = .ok B') ∧
    (∃ B', rotate S k m B = .ok B') ∧
    rotate_right S B ≠ .error .outOfBounds ∧
    rotate_left S B ≠ .error .outOfBounds ∧
    rotate S k m B ≠ .error .outOfBounds := by
  refine ⟨?_, ⟨_, rotate_right_eq S B⟩, ⟨_, rotate_left_eq S B⟩, ⟨_, rotate_eq_turns S k m B⟩,
    ?_, ?_, ?_⟩
  · intro i j h0 h1 h2 h3
    refine ⟨by omega, by omega, by omega, by omega, fun mat => ?_, fun mat => ?_⟩
    · obtain ⟨mat', h, -⟩ := rotate_right_body_spec ⟨h0, h1, h2, h3⟩ mat
      exact ⟨mat', h⟩
    · obtain ⟨mat', h, -⟩ := rotate_left_body_spec ⟨h0, h1, h2, h3⟩ mat
      exact ⟨mat', h⟩
  · rw [rotate_right_eq]
    exact fun h => Except.noConfusion h
  · rw [rotate_left_eq]
    exact fun h => Except.noConfusion h
  · rw [rotate_eq_turns]
    exact fun h => Except.noConfusion h

/-- C17: for a loop pair `(i, j)`, `0 ≤ i < S/2` and `i ≤ j < S-i-1`, the four
cells `(i, j)`, `(S-1-j, i)`, `(S-1-i, S-1-j)`, `(j, S-1-i)` are pairwise
distinct and all on ring `i`, `min(r, c, S-1-r, S-1-c) = i`; the cells of
another loop pair, of the same layer or not, are all different from them. -/
theorem cycle_cells_distinct_and_disjoint (S i j : Int) (h0 : 0 ≤ i) (h1 : i < S / 2)
    (h2 : i ≤ j) (h3 : j < S - i - 1) :
    cycleCells S i j = [(i, j), (S - 1 - j, i), (S - 1 - i, S - 1 - j), (j, S - 1 - i)] ∧
    (cycleCells S i j).Nodup ∧
    (∀ r c, (r, c) ∈ cycleCells S i j → min (min r c) (min (S - 1 - r) (S - 1 - c)) = i) ∧
    ∀ i' j', 0 ≤ i' → i' < S / 2 → i' ≤ j' → j' < S - i' - 1 → (i', j') ≠ (i, j) →
      ∀ r c, (r, c) ∈ cycleCells S i j → (r, c) ∉ cycleCells S i' j' := by
  refine ⟨rfl, ?_, ?_, ?_⟩
  · simp only [cycleCells, List.nodup_cons, List.mem_cons, List.mem_singleton, Prod.mk.injEq,
      List.not_mem_nil, not_false_eq_true, List.nodup_nil, and_true, not_or, or_false]
    omega
  · intro r c hc
    rw [mem_cycleCells] at hc
    omega
  · intro i' j' h0' h1' h2' h3' hne r c hc hc'
    obtain ⟨rfl, rfl⟩ := cycleCells_disjoint ⟨h0, h1, h2, h3⟩ ⟨h0', h1', h2', h3'⟩ hc hc'
    exact hne rfl

/-- Instance of C17 at `S = 4` and the loop pair `(0, 1)`. -/
theorem cycle_cells_distinct_and_disjoint_witness :
    cycleCells 4 0 1 = [(0, 1), (4 - 1 - 1, 0), (4 - 1 - 0, 4 - 1 - 1), (1, 4 - 1 - 0)] ∧
    (cycleCells 4 0 1).Nodup ∧ ((3 : Int), (2 : Int)) ∉ cycleCells 4 1 1 :=
  have h := cycle_cells_distinct_and_disjoint 4 0 1 (by decide) (by decide) (by decide)
    (by decide)
  ⟨h.1, h.2.1, h.2.2.2 1 1 (by decide) (by decide) (by decide) (by decide) (by decide) 3 2
    (by decide)⟩

/-- C18: for every side length, buffer and byte value `v`, a pass of
`rotate_right` and a pass of `rotate_left` end with as many cells holding `v`
as the buffer had before, and so does `rotate` for all counts; on the 4×4
buffer `card4`, which has 10 zero cells, a clockwise pass leaves 10 zero
cells. -/
theorem rotation_preserves_value_counts :
    (∀ (S : Nat) (B : Matrix) (v : Byte),
      (∃ B', rotate_right S B = .ok B' ∧ countValue S B' v = countValue S B v) ∧
      (∃ B', rotate_left S B = .ok B' ∧ countValue S B' v = countValue S B v) ∧
      ∀ k m : Int, ∃ B', rotate S k m B = .ok B' ∧ countValue S B' v = countValue S B v) ∧
    countValue 4 card4 0 = 10 ∧
    (rotate_right 4 card4).toOption.map (fun B' => countValue 4 B' 0) = some 10 := by
  refine ⟨fun S B v => ⟨⟨_, rotate_right_eq S B, countValue_clockwise S B v⟩,
    ⟨_, rotate_left_eq S B, countValue_counterClockwise S B v⟩, fun k m =>
    ⟨_, rotate_eq_turns S k m B, ?_⟩⟩, by decide, by decide⟩
  rw [countValue_clockwise_iterate, countValue_counterClockwise_iterate]

end PGMRotation
